import Mathlib

/-!
# A shallow embedding of `main.c` (lexer and statement parser of `q`)

The standard input is a list of characters, each standing for one byte
returned by `getchar`; the empty list is end of file.  `ungetc` of a
character puts it back in front of the list, `ungetc` of `EOF` does nothing.
Every C function that writes through an `out` pointer and returns an `int`
status becomes a function returning the status, the final content of `*out`
and the remaining input.  Character classes are those of the "C" locale.
-/

namespace Q

/-! ## Constants -/

def IDENTIFIER_MAX_LENGTH : Nat := 6

def FUNCTION_MAX_ARGS : Nat := 6

/-! ## Character classes of `<ctype.h>` -/

/-- The C function `isspace`: space, `\t`, `\n`, `\v`, `\f`, `\r`. -/
def isspace (c : Char) : Bool :=
  c.toNat = 32 || (9 ≤ c.toNat && c.toNat ≤ 13)

/-- The C function `isalpha`: `A`..`Z` and `a`..`z`. -/
def isalpha (c : Char) : Bool :=
  (65 ≤ c.toNat && c.toNat ≤ 90) || (97 ≤ c.toNat && c.toNat ≤ 122)

/-- The C function `isdigit`: `0`..`9`. -/
def isdigit (c : Char) : Bool :=
  48 ≤ c.toNat && c.toNat ≤ 57

/-- The zero byte. -/
def NUL : Char := Char.ofNat 0

/-! ## Data model -/

/-- The C `struct token`: the tag with the member of the union `as` that the
tag selects.  Every read of the union in the program is guarded by the tag. -/
inductive token where
  | ERR_TOK : token
  | IDENT_TOK (IDENT : List Char) : token
  | NUM_TOK (NUM : Nat) : token
  | SYMBOL_TOK (SYMBOL : Char) : token
  deriving DecidableEq, Repr

/-- The result of `memset(out, 0, sizeof(*out))` on a token. -/
def token_zero : token := token.ERR_TOK

/-- The C `struct type`, a single enumeration. -/
inductive type where
  | ERR_TYPE | INT_TYPE | IB_TYPE | IP_TYPE | ID_TYPE
  | NAT_TYPE | NB_TYPE | NP_TYPE | ND_TYPE
  deriving DecidableEq, Repr

/-- The C `struct arg`. -/
structure arg where
  type : type
  name : List Char
  deriving DecidableEq, Repr

inductive stmt_type where
  | ERR_STMT | FNDECL_STMT | VARDECL_STMT
  deriving DecidableEq, Repr

/-- The C `struct stmt`: the tag and the members of `as.FNDECL` that the
program writes (`body` is never touched, `as.VARDECL` is never used). -/
structure stmt where
  type : stmt_type
  FNDECL_type : Q.type
  FNDECL_name : List Char
  FNDECL_args : List arg
  deriving DecidableEq, Repr

/-- A zeroed identifier buffer. -/
def ident_zero : List Char := List.replicate IDENTIFIER_MAX_LENGTH NUL

def arg_zero : arg := ⟨type.ERR_TYPE, ident_zero⟩

/-- The result of `memset(out, 0, sizeof(*out))` on a statement. -/
def stmt_zero : stmt :=
  ⟨stmt_type.ERR_STMT, type.ERR_TYPE, ident_zero, List.replicate FUNCTION_MAX_ARGS arg_zero⟩

/-! ## The lexer -/

/-- The call `ungetc(c, stdin)`, where `none` is `EOF`. -/
def ungetc (c : Option Char) (stdin : List Char) : List Char :=
  match c with
  | none => stdin
  | some ch => ch :: stdin

/-- The loop `while (isspace(c = getchar()));`: the result is the input from
the character `c` the loop stops at (empty when `c` is `EOF`). -/
def skip_space : List Char → List Char
  | [] => []
  | c :: cs => if isspace c then skip_space cs else c :: cs

/-- The loop `do *writehead++ = c; while (writehead < end && isalpha(c = getchar()));`
with `buf` the part of the buffer written so far.  Returns the buffer, the
final `c` and the input. -/
def ident_fill (buf : List Char) (c : Char) : List Char → List Char × Option Char × List Char
  | [] =>
    if buf.length + 1 < IDENTIFIER_MAX_LENGTH then (buf ++ [c], none, [])
    else (buf ++ [c], some c, [])
  | d :: ds =>
    if buf.length + 1 < IDENTIFIER_MAX_LENGTH then
      if isalpha d then ident_fill (buf ++ [c]) d ds
      else (buf ++ [c], some d, ds)
    else (buf ++ [c], some c, d :: ds)

/-- The C test `isalpha(c)` on an `int` that may be `EOF`. -/
def isalpha_int : Option Char → Bool
  | none => false
  | some ch => isalpha ch

/-- The loop `while (isalpha(c)) c = getchar();`, entered with an alphabetic `c`
already tested: reads on until `c` is not alphabetic. -/
def ident_drop_rest : List Char → Option Char × List Char
  | [] => (none, [])
  | d :: ds => if isalpha d then ident_drop_rest ds else (some d, ds)

/-- The loop `while (isalpha(c)) c = getchar();`. -/
def ident_drop (c : Option Char) (stdin : List Char) : Option Char × List Char :=
  if isalpha_int c then ident_drop_rest stdin else (c, stdin)

/-- The loop `while (writehead < end) *writehead++ = '\0';`. -/
def ident_pad (buf : List Char) : List Char :=
  buf ++ List.replicate (IDENTIFIER_MAX_LENGTH - buf.length) NUL

/-- The loop `do number = number * 10 + c - '0'; while (isdigit(c = getchar()));`
on an `unsigned int` of 32 bits.  Returns `number`, the final `c` and the input. -/
def number_loop (number : Nat) (c : Char) : List Char → Nat × Option Char × List Char
  | [] => ((number * 10 + c.toNat + (2 ^ 32 - 48)) % 2 ^ 32, none, [])
  | d :: ds =>
    if isdigit d then number_loop ((number * 10 + c.toNat + (2 ^ 32 - 48)) % 2 ^ 32) d ds
    else ((number * 10 + c.toNat + (2 ^ 32 - 48)) % 2 ^ 32, some d, ds)

/-- The C function `lex`.  Returns the status, the token left in `*out` and
the remaining input.  In the number branch the local `number` is computed
and the input consumed, and `out->as.NUM` keeps the zero of the `memset`:
the function never assigns it. -/
def lex (stdin : List Char) : Nat × token × List Char :=
  match skip_space stdin with
  | [] => (1, token_zero, [])
  | c :: cs =>
    if isalpha c then
      match ident_fill [] c cs with
      | (buf, c1, cs1) =>
        match ident_drop c1 cs1 with
        | (c2, cs2) => (0, token.IDENT_TOK (ident_pad buf), ungetc c2 cs2)
    else if isdigit c then
      match number_loop 0 c cs with
      | (_, c1, cs1) => (0, token.NUM_TOK 0, ungetc c1 cs1)
    else
      (0, token.SYMBOL_TOK c, cs)

/-- The rendering `%-.*s` of print_token with precision `sizeof(tok->as.IDENT)`:
the bytes of the buffer up to the first zero byte, at most six of them. -/
def render_ident (IDENT : List Char) : List Char :=
  (IDENT.take IDENTIFIER_MAX_LENGTH).takeWhile (fun c => c != NUL)

/-- The C function `print_token`: the characters written to the output. -/
def print_token (tok : token) : List Char :=
  (match tok with
    | token.ERR_TOK => "[error]".toList
    | token.IDENT_TOK IDENT => "[identifier: ".toList ++ render_ident IDENT ++ "]".toList
    | token.NUM_TOK NUM => "[number: ".toList ++ (Nat.repr NUM).toList ++ "]".toList
    | token.SYMBOL_TOK SYMBOL => "[symbol: ".toList ++ [Char.ofNat 96, SYMBOL, Char.ofNat 96] ++ "]".toList)
  ++ [Char.ofNat 10]

/-! ## Keywords and token tests -/

def fn_keyword : List Char := ['f', 'n', NUL, NUL, NUL, NUL]
def var_keyword : List Char := ['v', 'a', 'r', NUL, NUL, NUL]
def int_keyword : List Char := ['i', 'n', 't', NUL, NUL, NUL]
def ib_keyword : List Char := ['i', 'b', NUL, NUL, NUL, NUL]
def ip_keyword : List Char := ['i', 'p', NUL, NUL, NUL, NUL]
def id_keyword : List Char := ['i', 'd', NUL, NUL, NUL, NUL]
def nat_keyword : List Char := ['n', 'a', 't', NUL, NUL, NUL]
def nb_keyword : List Char := ['n', 'b', NUL, NUL, NUL, NUL]
def np_keyword : List Char := ['n', 'p', NUL, NUL, NUL, NUL]
def nd_keyword : List Char := ['n', 'd', NUL, NUL, NUL, NUL]

/-- The C test `!memcmp(a, b, n)`: the first `n` bytes are equal. -/
def memcmp_eq (a b : List Char) (n : Nat) : Bool :=
  decide (a.take n = b.take n)

/-- The C function `type_parse`.  Returns the status, the type left in `*out`
(in the static `dummy` when `out` is null) and the remaining input. -/
def type_parse (stdin : List Char) : Nat × type × List Char :=
  match lex stdin with
  | (st, tok, rest) =>
    if st ≠ 0 then (1, type.ERR_TYPE, rest)
    else
      match tok with
      | token.IDENT_TOK IDENT =>
        if memcmp_eq IDENT int_keyword IDENTIFIER_MAX_LENGTH then (0, type.INT_TYPE, rest)
        else if memcmp_eq IDENT ib_keyword IDENTIFIER_MAX_LENGTH then (0, type.IB_TYPE, rest)
        else if memcmp_eq IDENT ip_keyword IDENTIFIER_MAX_LENGTH then (0, type.IP_TYPE, rest)
        else if memcmp_eq IDENT id_keyword IDENTIFIER_MAX_LENGTH then (0, type.ID_TYPE, rest)
        else if memcmp_eq IDENT nat_keyword IDENTIFIER_MAX_LENGTH then (0, type.NAT_TYPE, rest)
        else if memcmp_eq IDENT nb_keyword IDENTIFIER_MAX_LENGTH then (0, type.NB_TYPE, rest)
        else if memcmp_eq IDENT np_keyword IDENTIFIER_MAX_LENGTH then (0, type.NP_TYPE, rest)
        else if memcmp_eq IDENT nd_keyword IDENTIFIER_MAX_LENGTH then (0, type.ND_TYPE, rest)
        else (1, type.ERR_TYPE, rest)
      | _ => (1, type.ERR_TYPE, rest)

/-- The C function `is_symbol`. -/
def is_symbol (tok : token) (sym : Char) : Bool :=
  match tok with
  | token.SYMBOL_TOK SYMBOL => decide (SYMBOL = sym)
  | _ => false

/-- The C function `is_ident`. -/
def is_ident (tok : token) (ident : List Char) : Bool :=
  match tok with
  | token.IDENT_TOK IDENT => memcmp_eq IDENT ident IDENTIFIER_MAX_LENGTH
  | _ => false

/-- The C test `tok.type == IDENT_TOK`. -/
def is_ident_tok (tok : token) : Bool :=
  match tok with
  | token.IDENT_TOK _ => true
  | _ => false

/-- The C function `cp_ident`: the content of `*str` after the call. -/
def cp_ident (tok : token) : List Char :=
  match tok with
  | token.IDENT_TOK IDENT => IDENT.take IDENTIFIER_MAX_LENGTH
  | _ => List.replicate IDENTIFIER_MAX_LENGTH NUL

/-! ## The argument list parser -/

/-- The array `*out` after a write of `name` to `(*out)[argi].name`. -/
def set_name : List arg → Nat → List Char → List arg
  | [], _, _ => []
  | a :: as, 0, name => { a with name := name } :: as
  | a :: as, argi + 1, name => a :: set_name as argi name

/-- The array `*out` after a write of `ty` to `(*out)[argi].type`. -/
def set_type : List arg → Nat → type → List arg
  | [], _, _ => []
  | a :: as, 0, ty => { a with type := ty } :: as
  | a :: as, argi + 1, ty => a :: set_type as argi ty

/-- The block `if (argi) { if (!is_symbol(&tok, ',')) return 1; TRY(lex(&tok)); }`
of arglist_parse; a status other than 0 stands for `return 1`. -/
def arglist_sep (argi : Nat) (tok : token) (stdin : List Char) : Nat × token × List Char :=
  if argi ≠ 0 then
    if !is_symbol tok ',' then (1, tok, stdin)
    else
      match lex stdin with
      | (st, tok1, rest) => (if st ≠ 0 then 1 else 0, tok1, rest)
  else (0, tok, stdin)

/-- The loop `while (!is_symbol(&tok, ')')) { ... }` of arglist_parse followed
by its `return 0`, with a bound on the number of iterations; `none` when the
bound is reached.  `ASSERT_SYMBOL(tokp, sym)` is
`if ((lex(tokp)) && is_symbol((tokp), sym)); else return 1`. -/
def arglist_loop : Nat → Nat → token → List arg → List Char → Option (Nat × List arg × List Char)
  | 0, _, _, _, _ => none
  | fuel + 1, argi, tok, out, stdin =>
    if is_symbol tok ')' then some (0, out, stdin)
    else
      match arglist_sep argi tok stdin with
      | (st1, tok1, in1) =>
        if st1 ≠ 0 then some (1, out, in1)
        else if !is_ident_tok tok1 then some (1, out, in1)
        else
          let out1 := if argi < FUNCTION_MAX_ARGS then set_name out argi (cp_ident tok1) else out
          match lex in1 with
          | (st2, tok2, in2) =>
            if st2 ≠ 0 && is_symbol tok2 ':' then
              match type_parse in2 with
              | (st3, ty, in3) =>
                let out2 := if argi < FUNCTION_MAX_ARGS then set_type out1 argi ty else out1
                if st3 ≠ 0 then some (1, out2, in3)
                else
                  match lex in3 with
                  | (st4, tok4, in4) =>
                    if st4 ≠ 0 then some (1, out2, in4)
                    else arglist_loop fuel (argi + 1) tok4 out2 in4
            else some (1, out1, in2)

/-- The C function `arglist_parse`.  Returns the status, the array `*out` and
the remaining input. -/
def arglist_parse (out : List arg) (stdin : List Char) : Option (Nat × List arg × List Char) :=
  match lex stdin with
  | (st, tok, in1) =>
    if st ≠ 0 && is_symbol tok '(' then
      match lex in1 with
      | (st1, tok1, in2) =>
        if st1 ≠ 0 then some (1, out, in2)
        else arglist_loop (in2.length + 1) 0 tok1 out in2
    else some (1, out, in1)

/-! ## The statement parser -/

/-- The loop `do TRY(lex(&tok)); while (!is_symbol(&tok, '#'));` of parse, with
a bound on the number of iterations; a status other than 0 stands for
`return 1`. -/
def comment_body : Nat → List Char → Option (Nat × token × List Char)
  | 0, _ => none
  | fuel + 1, stdin =>
    match lex stdin with
    | (st, tok, rest) =>
      if st ≠ 0 then some (1, tok, rest)
      else if !is_symbol tok '#' then comment_body fuel rest
      else some (0, tok, rest)

/-- The loop `while (is_symbol(&tok, '#')) { do ... while (...); TRY(lex(&tok)); }`
of parse, with a bound on the number of iterations; a status other than 0
stands for `return 1`. -/
def comment_loop : Nat → token → List Char → Option (Nat × token × List Char)
  | 0, _, _ => none
  | fuel + 1, tok, stdin =>
    if is_symbol tok '#' then
      match comment_body (stdin.length + 1) stdin with
      | none => none
      | some (st, tok1, in1) =>
        if st ≠ 0 then some (1, tok1, in1)
        else
          match lex in1 with
          | (st2, tok2, in2) =>
            if st2 ≠ 0 then some (1, tok2, in2)
            else comment_loop fuel tok2 in2
    else some (0, tok, stdin)

/-- The branch `if (is_ident(&tok, &fn_keyword)) { ... }` of parse up to the
final `return 0`, entered with the zeroed `*out`. -/
def parse_fndecl (out : stmt) (stdin : List Char) : Option (Nat × stmt × List Char) :=
  let out1 := { out with type := stmt_type.FNDECL_STMT }
  match lex stdin with
  | (st1, tok1, in1) =>
    if st1 ≠ 0 then some (1, out1, in1)
    else if !is_ident_tok tok1 then some (1, out1, in1)
    else
      let out2 := { out1 with FNDECL_name := cp_ident tok1 }
      match arglist_parse out2.FNDECL_args in1 with
      | none => none
      | some (_, args, in2) =>
        let out3 := { out2 with FNDECL_args := args }
        match lex in2 with
        | (st3, tok3, in3) =>
          if st3 ≠ 0 then some (1, out3, in3)
          else if !is_symbol tok3 ':' then some (1, out3, in3)
          else
            match type_parse in3 with
            | (st4, ty, in4) =>
              let out4 := { out3 with FNDECL_type := ty }
              if st4 ≠ 0 then some (1, out4, in4)
              else
                match lex in4 with
                | (st5, tok5, in5) =>
                  if st5 ≠ 0 then some (1, out4, in5)
                  else if !is_symbol tok5 ';' then some (1, out4, in5)
                  else some (0, out4, in5)

/-- The C function `parse`.  Returns the status, the statement left in `*out`
and the remaining input; `none` only if a loop bound is reached. -/
def parse (stdin : List Char) : Option (Nat × stmt × List Char) :=
  let out := stmt_zero
  match lex stdin with
  | (st, tok, in1) =>
    if st ≠ 0 then some (1, out, in1)
    else
      match comment_loop (in1.length + 1) tok in1 with
      | none => none
      | some (st1, tok1, in2) =>
        if st1 ≠ 0 then some (1, out, in2)
        else if is_ident tok1 fn_keyword then parse_fndecl out in2
        else some (0, { out with type := stmt_type.ERR_STMT }, in2)

/-- How a run of main ends: with its `return 0`, or in the body of its loop at
`printf("[fndecl rettype=%d name=\"%.*s\" args=(")`, a call whose format has
three conversions and which passes no argument for them.  The behaviour of
that call is undefined, and nothing of the run is described from there on. -/
inductive main_end where
  | returned : main_end
  | undefined_printf : main_end
  deriving DecidableEq, Repr

/-- The loop `while (!parse(&stmt)) { switch (stmt.type) { ... } }` of main,
with a bound on the number of iterations.  Returns the statements its body is
entered with, in order, the characters written by the bodies that run to
their end, and how the run ends.  On `FNDECL_STMT` the body starts with the
`printf` that has no arguments and the run ends there; on `ERR_STMT` it writes
`[error?]` and a newline; the `switch` has no case for `VARDECL_STMT`. -/
def main_loop : Nat → List Char → Option (List stmt × List Char × main_end)
  | 0, _ => none
  | fuel + 1, stdin =>
    match parse stdin with
    | none => none
    | some (st, out, rest) =>
      if st ≠ 0 then some ([], [], main_end.returned)
      else
        match out.type with
        | stmt_type.FNDECL_STMT => some ([out], [], main_end.undefined_printf)
        | stmt_type.ERR_STMT =>
          match main_loop fuel rest with
          | none => none
          | some (outs, text, e) =>
            some (out :: outs, "[error?]".toList ++ Char.ofNat 10 :: text, e)
        | stmt_type.VARDECL_STMT =>
          match main_loop fuel rest with
          | none => none
          | some (outs, text, e) => some (out :: outs, text, e)

/-- The C function `main`: the statements the body of its loop is entered
with, the characters written and how the run ends; `none` only if the loop
bound is reached. -/
def main (stdin : List Char) : Option (List stmt × List Char × main_end) :=
  main_loop (stdin.length + 1) stdin

/-! ## Inputs named by the properties below -/

/-- The input made of the comment blocks `#c#`, for every `c` of the list in
turn, followed by `rest`. -/
def comment_run : List (List Char) → List Char → List Char
  | [], rest => rest
  | c :: cs, rest => '#' :: (c ++ '#' :: comment_run cs rest)

/-- The input made of comment blocks, each given by the white space in front
of it and its content, followed by `rest`. -/
def after_comments : List (List Char × List Char) → List Char → List Char
  | [], rest => rest
  | b :: bs, rest => b.1 ++ '#' :: (b.2 ++ '#' :: after_comments bs rest)

/-- The keyword of a type tag: the text the buffers `int_keyword`, ...,
`nd_keyword` are initialised with (none for `ERR_TYPE`). -/
def type_keyword : type → List Char
  | type.ERR_TYPE => []
  | type.INT_TYPE => ['i', 'n', 't']
  | type.IB_TYPE => ['i', 'b']
  | type.IP_TYPE => ['i', 'p']
  | type.ID_TYPE => ['i', 'd']
  | type.NAT_TYPE => ['n', 'a', 't']
  | type.NB_TYPE => ['n', 'b']
  | type.NP_TYPE => ['n', 'p']
  | type.ND_TYPE => ['n', 'd']

/-- The tokens that `n` successive calls of lex return and the input they
leave; `none` when one of the calls fails. -/
def lex_tokens : Nat → List Char → Option (List token × List Char)
  | 0, stdin => some ([], stdin)
  | n + 1, stdin =>
    match lex stdin with
    | (st, tok, rest) =>
      if st ≠ 0 then none
      else
        match lex_tokens n rest with
        | none => none
        | some (toks, r) => some (tok :: toks, r)

/-! ## The lexer on the characters of its input -/

theorem skip_space_eq (l : List Char) : skip_space l = l.dropWhile isspace := by
  induction l with
  | nil => rfl
  | cons c cs ih =>
    by_cases h : isspace c = true
    · simp [skip_space, List.dropWhile_cons, h, ih]
    · simp [skip_space, List.dropWhile_cons, h]

theorem ident_drop_rest_eq (l : List Char) :
    ungetc (ident_drop_rest l).1 (ident_drop_rest l).2 = l.dropWhile isalpha := by
  induction l with
  | nil => rfl
  | cons d ds ih =>
    by_cases h : isalpha d = true
    · simp [ident_drop_rest, List.dropWhile_cons, h, ih]
    · simp [ident_drop_rest, List.dropWhile_cons, h, ungetc]

/-- The identifier branch of lex from the first letter on: the buffer holds
the first letters of the identifier, the input resumes after all its letters. -/
theorem ident_scan_eq (cs : List Char) : ∀ (buf : List Char) (c : Char),
    isalpha c = true → buf.length < IDENTIFIER_MAX_LENGTH →
    (ident_fill buf c cs).1 = (buf ++ c :: cs.takeWhile isalpha).take IDENTIFIER_MAX_LENGTH ∧
    ungetc (ident_drop (ident_fill buf c cs).2.1 (ident_fill buf c cs).2.2).1
      (ident_drop (ident_fill buf c cs).2.1 (ident_fill buf c cs).2.2).2
        = cs.dropWhile isalpha := by
  induction cs with
  | nil =>
    intro buf c hc hb
    have hlen : (buf ++ [c]).length ≤ IDENTIFIER_MAX_LENGTH := by simp; omega
    by_cases h : buf.length + 1 < IDENTIFIER_MAX_LENGTH
    · simp [ident_fill, h, ident_drop, isalpha_int, ungetc, List.take_of_length_le hlen]
    · simp [ident_fill, h, ident_drop, isalpha_int, hc, ident_drop_rest, ungetc,
        List.take_of_length_le hlen]
  | cons d ds ih =>
    intro buf c hc hb
    have hlen : (buf ++ [c]).length ≤ IDENTIFIER_MAX_LENGTH := by simp; omega
    by_cases h : buf.length + 1 < IDENTIFIER_MAX_LENGTH
    · by_cases hd : isalpha d = true
      · have := ih (buf ++ [c]) d hd (by simpa using h)
        simpa [ident_fill, h, hd, List.takeWhile_cons, List.dropWhile_cons] using this
      · simp [ident_fill, h, hd, ident_drop, isalpha_int, ungetc, List.takeWhile_cons,
          List.dropWhile_cons, List.take_of_length_le hlen]
    · have h6 : (buf ++ [c]).length = IDENTIFIER_MAX_LENGTH := by simp; omega
      have htake : (buf ++ c :: List.takeWhile isalpha (d :: ds)).take IDENTIFIER_MAX_LENGTH
          = buf ++ [c] := by
        have : buf ++ c :: List.takeWhile isalpha (d :: ds)
            = (buf ++ [c]) ++ List.takeWhile isalpha (d :: ds) := by simp
        rw [this, ← h6, List.take_left]
      refine ⟨?_, ?_⟩
      · simp [ident_fill, h, htake]
      · simpa [ident_fill, h, ident_drop, isalpha_int, hc] using ident_drop_rest_eq (d :: ds)

theorem number_loop_eq (cs : List Char) : ∀ (number : Nat) (c : Char),
    ungetc (number_loop number c cs).2.1 (number_loop number c cs).2.2
      = cs.dropWhile isdigit := by
  induction cs with
  | nil => intro number c; rfl
  | cons d ds ih =>
    intro number c
    by_cases h : isdigit d = true
    · simpa [number_loop, List.dropWhile_cons, h] using ih _ d
    · simp [number_loop, List.dropWhile_cons, h, ungetc]

/-- The function lex in terms of the characters of its input. -/
theorem lex_eq (stdin : List Char) :
    lex stdin =
      match stdin.dropWhile isspace with
      | [] => (1, token_zero, [])
      | c :: cs =>
        if isalpha c then
          (0, token.IDENT_TOK (ident_pad ((c :: cs.takeWhile isalpha).take IDENTIFIER_MAX_LENGTH)),
            cs.dropWhile isalpha)
        else if isdigit c then (0, token.NUM_TOK 0, cs.dropWhile isdigit)
        else (0, token.SYMBOL_TOK c, cs) := by
  unfold lex
  rw [skip_space_eq]
  cases stdin.dropWhile isspace with
  | nil => rfl
  | cons c cs =>
    by_cases ha : isalpha c = true
    · have h := ident_scan_eq cs [] c ha (by decide)
      simp only [ha, if_true]
      rw [h.1, h.2]
      simp
    · by_cases hd : isdigit c = true
      · have h := number_loop_eq cs 0 c
        simp only [ha, hd, if_true]
        rw [h]
        simp
      · simp [ha, hd]

theorem isalpha_not_isspace {c : Char} (h : isalpha c = true) : isspace c = false := by
  simp only [isalpha, isspace, Bool.or_eq_true, Bool.and_eq_true, decide_eq_true_eq,
    Bool.or_eq_false_iff, Bool.and_eq_false_iff, decide_eq_false_iff_not] at *
  omega

theorem isalpha_not_isdigit {c : Char} (h : isalpha c = true) : isdigit c = false := by
  simp only [isalpha, isdigit, Bool.or_eq_true, Bool.and_eq_true, decide_eq_true_eq,
    Bool.and_eq_false_iff, decide_eq_false_iff_not] at *
  omega

theorem isdigit_not_isspace {c : Char} (h : isdigit c = true) : isspace c = false := by
  simp only [isdigit, isspace, Bool.and_eq_true, decide_eq_true_eq,
    Bool.or_eq_false_iff, Bool.and_eq_false_iff, decide_eq_false_iff_not] at *
  omega

theorem isalpha_ne_NUL {c : Char} (h : isalpha c = true) : c ≠ NUL := by
  intro hc
  rw [hc] at h
  exact absurd h (by decide)

theorem takeWhile_run (p : Char → Bool) (s r : List Char) (hs : ∀ c ∈ s, p c = true)
    (hr : ∀ c, r.head? = some c → p c = false) : (s ++ r).takeWhile p = s := by
  induction s with
  | nil =>
    cases r with
    | nil => rfl
    | cons d ds => simp [List.takeWhile_cons, hr d rfl]
  | cons a as ih =>
    have ha : p a = true := hs a (List.mem_cons_self _ _)
    simp [List.takeWhile_cons, ha, ih (fun c hc => hs c (List.mem_cons_of_mem _ hc))]

theorem dropWhile_run (p : Char → Bool) (s r : List Char) (hs : ∀ c ∈ s, p c = true)
    (hr : ∀ c, r.head? = some c → p c = false) : (s ++ r).dropWhile p = r := by
  induction s with
  | nil =>
    cases r with
    | nil => rfl
    | cons d ds => simp [List.dropWhile_cons, hr d rfl]
  | cons a as ih =>
    have ha : p a = true := hs a (List.mem_cons_self _ _)
    simp [List.dropWhile_cons, ha, ih (fun c hc => hs c (List.mem_cons_of_mem _ hc))]

/-- An identifier `s` after white space `ws`, followed by a character that is
not a letter or by the end of the input: lex returns the first letters of
`s`, zero-padded, and stops right after `s`. -/
theorem lex_ident (ws s r : List Char) (hws : ∀ c ∈ ws, isspace c = true)
    (hne : s ≠ []) (hs : ∀ c ∈ s, isalpha c = true)
    (hr : ∀ c, r.head? = some c → isalpha c = false) :
    lex (ws ++ (s ++ r)) =
      (0, token.IDENT_TOK (ident_pad (s.take IDENTIFIER_MAX_LENGTH)), r) := by
  cases s with
  | nil => exact absurd rfl hne
  | cons a as =>
    have ha : isalpha a = true := hs a (List.mem_cons_self _ _)
    have has : ∀ c ∈ as, isalpha c = true := fun c hc => hs c (List.mem_cons_of_mem _ hc)
    have hdrop : (ws ++ (a :: as ++ r)).dropWhile isspace = a :: (as ++ r) := by
      apply dropWhile_run isspace ws _ hws
      intro c hc
      simp at hc
      rw [← hc]
      exact isalpha_not_isspace ha
    rw [lex_eq, hdrop]
    simp only [ha, if_true, takeWhile_run isalpha as r has hr, dropWhile_run isalpha as r has hr]

theorem render_ident_pad (s : List Char) (hs : ∀ c ∈ s, isalpha c = true)
    (hlen : s.length ≤ IDENTIFIER_MAX_LENGTH) : render_ident (ident_pad s) = s := by
  have hl : (ident_pad s).length ≤ IDENTIFIER_MAX_LENGTH := by
    simp [ident_pad]; omega
  unfold render_ident
  rw [List.take_of_length_le hl]
  unfold ident_pad
  apply takeWhile_run
  · intro c hc
    simpa using isalpha_ne_NUL (hs c hc)
  · intro c hc
    cases hk : IDENTIFIER_MAX_LENGTH - s.length with
    | zero => simp [hk] at hc
    | succ k =>
      simp [hk, List.replicate_succ] at hc
      simp [← hc]

/-! ## Status and progress of lex -/

theorem lex_status (stdin : List Char) :
    (lex stdin).1 = 0 ∨ lex stdin = (1, token_zero, []) := by
  rw [lex_eq]
  cases stdin.dropWhile isspace with
  | nil => exact Or.inr rfl
  | cons c cs =>
    left
    by_cases ha : isalpha c = true
    · simp [ha]
    · by_cases hd : isdigit c = true <;> simp [ha, hd]

theorem lex_fail {stdin : List Char} {st : Nat} {tok : token} {rest : List Char}
    (h : lex stdin = (st, tok, rest)) (hst : st ≠ 0) :
    st = 1 ∧ tok = token_zero ∧ rest = [] := by
  rcases lex_status stdin with h0 | h1
  · rw [h] at h0
    exact absurd h0 hst
  · rw [h] at h1
    simpa using h1

theorem lex_progress {stdin : List Char} {tok : token} {rest : List Char}
    (h : lex stdin = (0, tok, rest)) : rest.length < stdin.length := by
  rw [lex_eq] at h
  have hsuf : (stdin.dropWhile isspace).length ≤ stdin.length :=
    (List.dropWhile_suffix isspace).length_le
  cases hd : stdin.dropWhile isspace with
  | nil => simp [hd] at h
  | cons c cs =>
    rw [hd] at h hsuf
    have h1 : (cs.dropWhile isalpha).length ≤ cs.length :=
      (List.dropWhile_suffix isalpha).length_le
    have h2 : (cs.dropWhile isdigit).length ≤ cs.length :=
      (List.dropWhile_suffix isdigit).length_le
    simp only [List.length_cons] at hsuf
    by_cases ha : isalpha c = true
    · simp only [ha, if_true, Prod.mk.injEq] at h
      rw [← h.2.2]; omega
    · by_cases hdg : isdigit c = true
      · simp [ha, hdg] at h
        rw [← h.2]; omega
      · simp [ha, hdg] at h
        rw [← h.2]; omega

/-! ## The argument list parser always fails after one token -/

theorem arglist_parse_eq (out : List arg) (stdin : List Char) :
    arglist_parse out stdin = some (1, out, (lex stdin).2.2) := by
  unfold arglist_parse
  rcases hl : lex stdin with ⟨st, tok, in1⟩
  by_cases hst : st = 0
  · simp [hst]
  · obtain ⟨-, htok, -⟩ := lex_fail hl hst
    simp [htok, token_zero, is_symbol]

/-! ## The comment loops -/

theorem comment_body_total : ∀ (fuel : Nat) (stdin : List Char), stdin.length < fuel →
    ∃ r, comment_body fuel stdin = some r := by
  intro fuel
  induction fuel with
  | zero => intro stdin h; omega
  | succ n ih =>
    intro stdin h
    rcases hl : lex stdin with ⟨st, tok, rest⟩
    by_cases hst : st = 0
    · subst hst
      have hp := lex_progress hl
      by_cases hsym : is_symbol tok '#' = true
      · exact ⟨(0, tok, rest), by simp [comment_body, hl, hsym]⟩
      · obtain ⟨r, hr⟩ := ih rest (by omega)
        exact ⟨r, by simp [comment_body, hl, hsym, hr]⟩
    · exact ⟨(1, tok, rest), by simp [comment_body, hl, hst]⟩

theorem comment_body_progress : ∀ (fuel : Nat) (stdin : List Char) (tok : token)
    (rest : List Char), comment_body fuel stdin = some (0, tok, rest) →
    rest.length < stdin.length := by
  intro fuel
  induction fuel with
  | zero => intro stdin tok rest h; simp [comment_body] at h
  | succ n ih =>
    intro stdin tok rest h
    rcases hl : lex stdin with ⟨st, tok1, rest1⟩
    by_cases hst : st = 0
    · subst hst
      have hp := lex_progress hl
      by_cases hsym : is_symbol tok1 '#' = true
      · simp [comment_body, hl, hsym] at h
        rw [← h.2]; exact hp
      · simp [comment_body, hl, hsym] at h
        have := ih rest1 tok rest h
        omega
    · simp [comment_body, hl, hst] at h

theorem comment_loop_fuel : ∀ (f f1 : Nat) (tok : token) (stdin : List Char),
    stdin.length < f → stdin.length < f1 →
    comment_loop f tok stdin = comment_loop f1 tok stdin := by
  intro f
  induction f with
  | zero => intro f1 tok stdin h; omega
  | succ n ih =>
    intro f1 tok stdin h h1
    cases f1 with
    | zero => omega
    | succ m =>
      unfold comment_loop
      by_cases hsym : is_symbol tok '#' = true
      · simp only [hsym, if_true]
        cases hb : comment_body (stdin.length + 1) stdin with
        | none => rfl
        | some r =>
          obtain ⟨st, tok1, in1⟩ := r
          by_cases hst : st = 0
          · subst hst
            have hp := comment_body_progress _ _ _ _ hb
            rcases hl : lex in1 with ⟨st2, tok2, in2⟩
            by_cases hst2 : st2 = 0
            · subst hst2
              have hp2 := lex_progress hl
              have hih := ih m tok2 in2 (by omega) (by omega)
              simpa [hl] using hih
            · simp [hl, hst2]
          · simp [hst]
      · simp [hsym]

theorem comment_loop_total : ∀ (fuel : Nat) (tok : token) (stdin : List Char),
    stdin.length < fuel → ∃ r, comment_loop fuel tok stdin = some r := by
  intro fuel
  induction fuel with
  | zero => intro tok stdin h; omega
  | succ n ih =>
    intro tok stdin h
    unfold comment_loop
    by_cases hsym : is_symbol tok '#' = true
    · simp only [hsym, if_true]
      obtain ⟨r, hb⟩ := comment_body_total (stdin.length + 1) stdin (by omega)
      obtain ⟨st, tok1, in1⟩ := r
      rw [hb]
      by_cases hst : st = 0
      · subst hst
        have hp := comment_body_progress _ _ _ _ hb
        rcases hl : lex in1 with ⟨st2, tok2, in2⟩
        by_cases hst2 : st2 = 0
        · subst hst2
          have hp2 := lex_progress hl
          have hih := ih tok2 in2 (by omega)
          simpa [hl] using hih
        · exact ⟨(1, tok2, in2), by simp [hl, hst2]⟩
      · exact ⟨(1, tok1, in1), by simp [hst]⟩
    · exact ⟨(0, tok, stdin), by simp [hsym]⟩

theorem dropWhile_stop (p : Char → Bool) (x : Char) (r : List Char) (hx : p x = false) :
    ∀ c : List Char, (c ++ x :: r).dropWhile p = c.dropWhile p ++ x :: r := by
  intro c
  induction c with
  | nil => simp [List.dropWhile_cons, hx]
  | cons a as ih =>
    by_cases ha : p a = true
    · simp [List.dropWhile_cons, ha, ih]
    · simp [List.dropWhile_cons, ha]

/-- One call of lex inside a comment whose closing `#` is still ahead: either
only white space is left before the `#` and the token is that `#`, or the
token is not `#` and the input stays in front of the same `#`. -/
theorem lex_before_hash (c rest : List Char) (hc : '#' ∉ c) :
    lex (c ++ '#' :: rest) = (0, token.SYMBOL_TOK '#', rest) ∨
    ∃ tok c1, lex (c ++ '#' :: rest) = (0, tok, c1 ++ '#' :: rest) ∧
      is_symbol tok '#' = false ∧ '#' ∉ c1 ∧ c1.length < c.length := by
  rw [lex_eq, dropWhile_stop isspace '#' rest (by decide) c]
  have hsuf := List.dropWhile_suffix (l := c) isspace
  cases hd : c.dropWhile isspace with
  | nil =>
    left
    have h1 : isalpha '#' = false := by decide
    have h2 : isdigit '#' = false := by decide
    simp [h1, h2]
  | cons x c1 =>
    right
    rw [hd] at hsuf
    have hlen : c1.length + 1 ≤ c.length := by simpa using hsuf.length_le
    have hx : x ≠ '#' := by
      intro hx
      exact hc (hsuf.mem (by simp [hx]))
    have hc1 : '#' ∉ c1 := fun h => hc (hsuf.mem (List.mem_cons_of_mem _ h))
    by_cases ha : isalpha x = true
    · refine ⟨token.IDENT_TOK (ident_pad ((x :: (c1 ++ '#' :: rest).takeWhile isalpha).take
        IDENTIFIER_MAX_LENGTH)), c1.dropWhile isalpha, ?_, rfl, ?_, ?_⟩
      · simp [ha, dropWhile_stop isalpha '#' rest (by decide) c1]
      · exact fun h => hc1 ((List.dropWhile_suffix isalpha).mem h)
      · have := (List.dropWhile_suffix (l := c1) isalpha).length_le
        omega
    · by_cases hdg : isdigit x = true
      · refine ⟨token.NUM_TOK 0, c1.dropWhile isdigit, ?_, rfl, ?_, ?_⟩
        · simp [ha, hdg, dropWhile_stop isdigit '#' rest (by decide) c1]
        · exact fun h => hc1 ((List.dropWhile_suffix isdigit).mem h)
        · have := (List.dropWhile_suffix (l := c1) isdigit).length_le
          omega
      · refine ⟨token.SYMBOL_TOK x, c1, ?_, ?_, hc1, by omega⟩
        · simp [ha, hdg]
        · simp [is_symbol, hx]

/-- The inner comment loop stops right after the first `#` ahead. -/
theorem comment_body_block (rest : List Char) : ∀ (fuel : Nat) (c : List Char),
    '#' ∉ c → c.length < fuel →
    comment_body fuel (c ++ '#' :: rest) = some (0, token.SYMBOL_TOK '#', rest) := by
  intro fuel
  induction fuel with
  | zero => intro c _ h; omega
  | succ n ih =>
    intro c hc hlen
    rcases lex_before_hash c rest hc with h | ⟨tok, c1, h, hsym, hc1, hlen1⟩
    · simp [comment_body, h, is_symbol]
    · simp [comment_body, h, hsym, ih c1 hc1 (by omega)]

theorem lex_hash (ws rest : List Char) (hws : ∀ c ∈ ws, isspace c = true) :
    lex (ws ++ '#' :: rest) = (0, token.SYMBOL_TOK '#', rest) := by
  have hdrop : (ws ++ '#' :: rest).dropWhile isspace = '#' :: rest := by
    apply dropWhile_run isspace ws _ hws
    intro c hc
    simp at hc
    rw [← hc]
    decide
  have h1 : isalpha '#' = false := by decide
  have h2 : isdigit '#' = false := by decide
  rw [lex_eq, hdrop]
  simp [h1, h2]

/-- A comment block, with white space in front of it, is invisible to parse. -/
theorem parse_comment_block (ws c rest : List Char) (hws : ∀ x ∈ ws, isspace x = true)
    (hc : '#' ∉ c) : parse (ws ++ '#' :: (c ++ '#' :: rest)) = parse rest := by
  have hbody := comment_body_block rest ((c ++ '#' :: rest).length + 1) c hc
    (by simp; omega)
  rcases hl : lex rest with ⟨st2, tok2, in2⟩
  have hloop : comment_loop ((c ++ '#' :: rest).length + 1) (token.SYMBOL_TOK '#')
      (c ++ '#' :: rest) =
        if st2 ≠ 0 then some (1, tok2, in2) else comment_loop (in2.length + 1) tok2 in2 := by
    rw [comment_loop, hbody]
    by_cases hst2 : st2 = 0
    · subst hst2
      have hp := lex_progress hl
      have hfuel := comment_loop_fuel (c ++ '#' :: rest).length (in2.length + 1) tok2 in2
        (by simp; omega) (by omega)
      simp only [is_symbol, decide_True, if_true, hl, ne_eq, not_true_eq_false, if_false, hfuel]
    · simp [is_symbol, hl, hst2]
  unfold parse
  rw [lex_hash ws _ hws]
  simp only [hloop, hl, ne_eq, not_true_eq_false, if_false]
  by_cases hst2 : st2 = 0
  · simp only [hst2, not_true_eq_false, if_false]
  · simp [hst2]

theorem parse_fndecl_total (out : stmt) (stdin : List Char) :
    ∃ r, parse_fndecl out stdin = some r := by
  unfold parse_fndecl
  simp only [arglist_parse_eq]
  repeat' split
  all_goals exact ⟨_, rfl⟩

theorem parse_total (stdin : List Char) : ∃ r, parse stdin = some r := by
  rcases hl : lex stdin with ⟨st, tok, in1⟩
  by_cases hst : st = 0
  · subst hst
    obtain ⟨⟨st1, tok1, in2⟩, hr⟩ := comment_loop_total (in1.length + 1) tok in1 (by omega)
    by_cases hst1 : st1 = 0
    · by_cases hfn : is_ident tok1 fn_keyword = true
      · obtain ⟨r, hr1⟩ := parse_fndecl_total stmt_zero in2
        exact ⟨r, by simp [parse, hl, hr, hst1, hfn, hr1]⟩
      · exact ⟨(0, { stmt_zero with type := stmt_type.ERR_STMT }, in2),
          by simp [parse, hl, hr, hst1, hfn]⟩
    · exact ⟨(1, stmt_zero, in2), by simp [parse, hl, hr, hst1]⟩
  · exact ⟨(1, stmt_zero, in1), by simp [parse, hl, hst]⟩

theorem parse_fndecl_type (out : stmt) (stdin : List Char) :
    (parse_fndecl out stdin).map (fun r => r.2.1.type) = some stmt_type.FNDECL_STMT := by
  unfold parse_fndecl
  simp only [arglist_parse_eq]
  repeat' split
  all_goals rfl

theorem lex_space_only (ws : List Char) (hws : ∀ c ∈ ws, isspace c = true) :
    lex ws = (1, token_zero, []) := by
  have h : ws.dropWhile isspace = [] := List.dropWhile_eq_nil_iff.mpr (by simpa using hws)
  rw [lex_eq, h]

theorem parse_after_comments (blocks : List (List Char × List Char)) (rest : List Char)
    (hb : ∀ b ∈ blocks, (∀ c ∈ b.1, isspace c = true) ∧ '#' ∉ b.2) :
    parse (after_comments blocks rest) = parse rest := by
  induction blocks with
  | nil => rfl
  | cons b bs ih =>
    have h := hb b (List.mem_cons_self _ _)
    rw [after_comments, parse_comment_block b.1 b.2 _ h.1 h.2]
    exact ih (fun x hx => hb x (List.mem_cons_of_mem _ hx))

theorem dropWhile_head_stop (p : Char → Bool) (l : List Char) (c : Char)
    (h : (l.dropWhile p).head? = some c) : p c = false := by
  have := List.head?_dropWhile_not p l
  rw [h] at this
  exact this

/-- An identifier token comes from white space, then a non-empty run of
letters, then the remaining input, which does not start with a letter. -/
theorem lex_ident_inv {stdin rest buf : List Char}
    (h : lex stdin = (0, token.IDENT_TOK buf, rest)) :
    ∃ ws s, (∀ c ∈ ws, isspace c = true) ∧ s ≠ [] ∧ (∀ c ∈ s, isalpha c = true) ∧
      (∀ c, rest.head? = some c → isalpha c = false) ∧ stdin = ws ++ (s ++ rest) ∧
      buf = ident_pad (s.take IDENTIFIER_MAX_LENGTH) := by
  rw [lex_eq] at h
  have hsplit := List.takeWhile_append_dropWhile isspace stdin
  cases hd : stdin.dropWhile isspace with
  | nil => simp [hd] at h
  | cons c cs =>
    rw [hd] at h hsplit
    by_cases ha : isalpha c = true
    · simp only [ha, if_true, Prod.mk.injEq, token.IDENT_TOK.injEq, true_and] at h
      refine ⟨stdin.takeWhile isspace, c :: cs.takeWhile isalpha, ?_, by simp, ?_, ?_, ?_, h.1.symm⟩
      · intro x hx
        exact List.mem_takeWhile_imp hx
      · intro x hx
        rcases List.mem_cons.mp hx with rfl | hx
        · exact ha
        · exact List.mem_takeWhile_imp hx
      · intro x hx
        rw [← h.2] at hx
        exact dropWhile_head_stop isalpha cs x hx
      · rw [← h.2, List.cons_append, List.takeWhile_append_dropWhile, hsplit]
    · by_cases hdg : isdigit c = true
      · simp [ha, hdg] at h
      · simp [ha, hdg] at h

theorem type_keyword_alpha (T : type) : ∀ c ∈ type_keyword T, isalpha c = true := by
  cases T <;> decide

theorem type_keyword_length (T : type) : (type_keyword T).length < IDENTIFIER_MAX_LENGTH := by
  cases T <;> decide

/-- A successful type_parse read an identifier token whose buffer is the
zero-padded keyword of the tag. -/
theorem type_parse_ok {stdin rest : List Char} {T : type}
    (h : type_parse stdin = (0, T, rest)) :
    T ≠ type.ERR_TYPE ∧ ∃ buf, lex stdin = (0, token.IDENT_TOK buf, rest) ∧
      buf.take IDENTIFIER_MAX_LENGTH = ident_pad (type_keyword T) := by
  unfold type_parse at h
  rcases hl : lex stdin with ⟨st, tok, r⟩
  rw [hl] at h
  by_cases hst : st = 0
  · subst hst
    cases tok with
    | IDENT_TOK buf =>
      simp only [ne_eq, not_true_eq_false, if_false, memcmp_eq] at h
      split_ifs at h with h1 h2 h3 h4 h5 h6 h7 h8
      · cases h
        exact ⟨by decide, buf, rfl, (of_decide_eq_true h1).trans (by decide)⟩
      · cases h
        exact ⟨by decide, buf, rfl, (of_decide_eq_true h2).trans (by decide)⟩
      · cases h
        exact ⟨by decide, buf, rfl, (of_decide_eq_true h3).trans (by decide)⟩
      · cases h
        exact ⟨by decide, buf, rfl, (of_decide_eq_true h4).trans (by decide)⟩
      · cases h
        exact ⟨by decide, buf, rfl, (of_decide_eq_true h5).trans (by decide)⟩
      · cases h
        exact ⟨by decide, buf, rfl, (of_decide_eq_true h6).trans (by decide)⟩
      · cases h
        exact ⟨by decide, buf, rfl, (of_decide_eq_true h7).trans (by decide)⟩
      · cases h
        exact ⟨by decide, buf, rfl, (of_decide_eq_true h8).trans (by decide)⟩
      · simp at h
    | ERR_TOK => simp at h
    | NUM_TOK n => simp at h
    | SYMBOL_TOK c => simp at h
  · simp [hst] at h

/-- The function type_parse on an identifier token holding a keyword. -/
theorem type_parse_keyword {stdin rest : List Char} (T : type) (hT : T ≠ type.ERR_TYPE)
    (h : lex stdin = (0, token.IDENT_TOK (ident_pad (type_keyword T)), rest)) :
    type_parse stdin = (0, T, rest) := by
  unfold type_parse
  rw [h]
  cases T
  · exact absurd rfl hT
  all_goals rfl

/-- The function type_parse either succeeds with a tag other than `ERR_TYPE`
or fails with status 1 and the tag `ERR_TYPE`. -/
theorem type_parse_status (stdin : List Char) :
    (∃ T rest, T ≠ type.ERR_TYPE ∧ type_parse stdin = (0, T, rest)) ∨
    ∃ rest, type_parse stdin = (1, type.ERR_TYPE, rest) := by
  unfold type_parse
  rcases lex stdin with ⟨st, tok, r⟩
  by_cases hst : st = 0
  · subst hst
    cases tok with
    | IDENT_TOK buf =>
      simp only [ne_eq, not_true_eq_false, if_false]
      split_ifs
      · exact Or.inl ⟨_, _, by decide, rfl⟩
      · exact Or.inl ⟨_, _, by decide, rfl⟩
      · exact Or.inl ⟨_, _, by decide, rfl⟩
      · exact Or.inl ⟨_, _, by decide, rfl⟩
      · exact Or.inl ⟨_, _, by decide, rfl⟩
      · exact Or.inl ⟨_, _, by decide, rfl⟩
      · exact Or.inl ⟨_, _, by decide, rfl⟩
      · exact Or.inl ⟨_, _, by decide, rfl⟩
      · exact Or.inr ⟨_, rfl⟩
    | ERR_TOK => exact Or.inr ⟨r, rfl⟩
    | NUM_TOK n => exact Or.inr ⟨r, rfl⟩
    | SYMBOL_TOK c => exact Or.inr ⟨r, rfl⟩
  · exact Or.inr ⟨r, by simp [hst]⟩

theorem ident_pad_length (s : List Char) (h : s.length ≤ IDENTIFIER_MAX_LENGTH) :
    (ident_pad s).length = IDENTIFIER_MAX_LENGTH := by
  simp [ident_pad]
  omega

/-- Two runs of letters with the same zero-padded buffer, one of them shorter
than the buffer, are the same text. -/
theorem ident_pad_take_inj (s k : List Char) (hs : ∀ c ∈ s, isalpha c = true)
    (hk : ∀ c ∈ k, isalpha c = true) (hlen : k.length < IDENTIFIER_MAX_LENGTH)
    (h : ident_pad (s.take IDENTIFIER_MAX_LENGTH) = ident_pad k) : s = k := by
  have h1 : render_ident (ident_pad (s.take IDENTIFIER_MAX_LENGTH))
      = s.take IDENTIFIER_MAX_LENGTH :=
    render_ident_pad _ (fun c hc => hs c (List.mem_of_mem_take hc)) (by simp)
  have h2 : render_ident (ident_pad k) = k := render_ident_pad k hk (by omega)
  rw [h, h2] at h1
  have h3 : (s.take IDENTIFIER_MAX_LENGTH).length = k.length := by rw [← h1]
  rw [List.length_take] at h3
  have h4 : s.length ≤ IDENTIFIER_MAX_LENGTH := by omega
  rw [List.take_of_length_le h4] at h1
  exact h1.symm

theorem lex_suffix (stdin : List Char) : (lex stdin).2.2 <:+ stdin := by
  rw [lex_eq]
  have hsuf := List.dropWhile_suffix (l := stdin) isspace
  cases hd : stdin.dropWhile isspace with
  | nil => exact List.nil_suffix
  | cons c cs =>
    rw [hd] at hsuf
    have hcs : cs <:+ stdin := (List.suffix_cons c cs).trans hsuf
    by_cases ha : isalpha c = true
    · simpa [ha] using (List.dropWhile_suffix isalpha).trans hcs
    · by_cases hdg : isdigit c = true
      · simpa [ha, hdg] using (List.dropWhile_suffix isdigit).trans hcs
      · simpa [ha, hdg] using hcs

theorem dropWhile_isspace_append (ws s : List Char) (hws : ∀ c ∈ ws, isspace c = true) :
    (ws ++ s).dropWhile isspace = s.dropWhile isspace := by
  induction ws with
  | nil => rfl
  | cons a as ih =>
    have ha : isspace a = true := hws a (List.mem_cons_self _ _)
    simp [List.dropWhile_cons, ha, ih (fun c hc => hws c (List.mem_cons_of_mem _ hc))]

/-- A token `#` comes from white space followed by the character `#`. -/
theorem lex_hash_inv {stdin rest : List Char} {tok : token}
    (h : lex stdin = (0, tok, rest)) (hsym : is_symbol tok '#' = true) :
    ∃ ws, (∀ c ∈ ws, isspace c = true) ∧ stdin = ws ++ '#' :: rest := by
  rw [lex_eq] at h
  have hsplit := List.takeWhile_append_dropWhile isspace stdin
  cases hd : stdin.dropWhile isspace with
  | nil => simp [hd] at h
  | cons c cs =>
    rw [hd] at h hsplit
    by_cases ha : isalpha c = true
    · simp [ha] at h
      rw [← h.1] at hsym
      simp [is_symbol] at hsym
    · by_cases hdg : isdigit c = true
      · simp [ha, hdg] at h
        rw [← h.1] at hsym
        simp [is_symbol] at hsym
      · simp [ha, hdg] at h
        rw [← h.1] at hsym
        simp [is_symbol] at hsym
        refine ⟨stdin.takeWhile isspace, fun x hx => List.mem_takeWhile_imp hx, ?_⟩
        rw [← h.2, ← hsym, hsplit]

/-- A token other than `#` comes from characters none of which is `#`. -/
theorem lex_not_hash_inv {stdin rest : List Char} {tok : token}
    (h : lex stdin = (0, tok, rest)) (hsym : is_symbol tok '#' = false) :
    ∃ pre, '#' ∉ pre ∧ stdin = pre ++ rest := by
  rw [lex_eq] at h
  have hsplit := List.takeWhile_append_dropWhile isspace stdin
  have hws : '#' ∉ stdin.takeWhile isspace := by
    intro hx
    exact absurd (List.mem_takeWhile_imp hx) (by decide)
  cases hd : stdin.dropWhile isspace with
  | nil => simp [hd] at h
  | cons c cs =>
    rw [hd] at h hsplit
    by_cases ha : isalpha c = true
    · simp [ha] at h
      refine ⟨stdin.takeWhile isspace ++ c :: cs.takeWhile isalpha, ?_, ?_⟩
      · intro hx
        rcases List.mem_append.mp hx with hx | hx
        · exact hws hx
        · rcases List.mem_cons.mp hx with hx | hx
          · rw [← hx] at ha
            exact absurd ha (by decide)
          · exact absurd (List.mem_takeWhile_imp hx) (by decide)
      · rw [← h.2, List.append_assoc, List.cons_append, List.takeWhile_append_dropWhile, hsplit]
    · by_cases hdg : isdigit c = true
      · simp [ha, hdg] at h
        refine ⟨stdin.takeWhile isspace ++ c :: cs.takeWhile isdigit, ?_, ?_⟩
        · intro hx
          rcases List.mem_append.mp hx with hx | hx
          · exact hws hx
          · rcases List.mem_cons.mp hx with hx | hx
            · rw [← hx] at hdg
              exact absurd hdg (by decide)
            · exact absurd (List.mem_takeWhile_imp hx) (by decide)
        · rw [← h.2, List.append_assoc, List.cons_append, List.takeWhile_append_dropWhile,
            hsplit]
      · simp [ha, hdg] at h
        rw [← h.1] at hsym
        simp [is_symbol] at hsym
        refine ⟨stdin.takeWhile isspace ++ [c], ?_, ?_⟩
        · intro hx
          rcases List.mem_append.mp hx with hx | hx
          · exact hws hx
          · simp at hx
            exact hsym hx.symm
        · rw [← h.2, List.append_assoc]
          simpa using hsplit.symm

/-- Without a `#` ahead the inner comment loop runs into the end of the input. -/
theorem comment_body_no_hash : ∀ (fuel : Nat) (c : List Char), '#' ∉ c → c.length < fuel →
    comment_body fuel c = some (1, token_zero, []) := by
  intro fuel
  induction fuel with
  | zero => intro c _ h; omega
  | succ n ih =>
    intro c hc hlen
    rcases hl : lex c with ⟨st, tok, rest⟩
    by_cases hst : st = 0
    · subst hst
      have hp := lex_progress hl
      have hsuf : rest <:+ c := by simpa [hl] using lex_suffix c
      by_cases hsym : is_symbol tok '#' = true
      · obtain ⟨ws, -, hws⟩ := lex_hash_inv hl hsym
        exact absurd (by rw [hws]; simp) hc
      · have hrec := ih rest (fun h => hc (hsuf.mem h)) (by omega)
        simp [comment_body, hl, hsym, hrec]
    · obtain ⟨-, htok, hrest⟩ := lex_fail hl hst
      simp [comment_body, hl, hst, htok, hrest]

/-- The inner comment loop ends with success only right after a `#`, having
read characters none of which is `#`. -/
theorem comment_body_inv : ∀ (fuel : Nat) (stdin rest : List Char) (tok : token),
    comment_body fuel stdin = some (0, tok, rest) →
    ∃ c, '#' ∉ c ∧ stdin = c ++ '#' :: rest := by
  intro fuel
  induction fuel with
  | zero => intro stdin rest tok h; simp [comment_body] at h
  | succ n ih =>
    intro stdin rest tok h
    rcases hl : lex stdin with ⟨st, tok1, rest1⟩
    by_cases hst : st = 0
    · subst hst
      by_cases hsym : is_symbol tok1 '#' = true
      · simp [comment_body, hl, hsym] at h
        obtain ⟨ws, hws, hstd⟩ := lex_hash_inv hl hsym
        refine ⟨ws, ?_, by rw [hstd, h.2]⟩
        intro hx
        exact absurd (hws _ hx) (by decide)
      · simp [comment_body, hl, hsym] at h
        obtain ⟨c, hc, hrest⟩ := ih rest1 rest tok h
        obtain ⟨pre, hpre, hstd⟩ := lex_not_hash_inv hl (by simpa using hsym)
        refine ⟨pre ++ c, ?_, by rw [hstd, hrest, List.append_assoc]⟩
        intro hx
        rcases List.mem_append.mp hx with hx | hx
        · exact hpre hx
        · exact hc hx
    · simp [comment_body, hl, hst] at h

/-- When the comment loop of parse ends with success, the input its first
token was read from is a run of comment blocks followed by an input whose
first token, not a `#`, is the one the loop ends with. -/
theorem comment_loop_inv : ∀ (fuel : Nat) (X stdin rest : List Char) (tok tok1 : token),
    lex X = (0, tok, stdin) → comment_loop fuel tok stdin = some (0, tok1, rest) →
    ∃ blocks X1, (∀ b ∈ blocks, (∀ c ∈ b.1, isspace c = true) ∧ '#' ∉ b.2) ∧
      X = after_comments blocks X1 ∧ lex X1 = (0, tok1, rest) ∧
      is_symbol tok1 '#' = false := by
  intro fuel
  induction fuel with
  | zero => intro X stdin rest tok tok1 _ h; simp [comment_loop] at h
  | succ n ih =>
    intro X stdin rest tok tok1 hl h
    by_cases hsym : is_symbol tok '#' = true
    · obtain ⟨ws, hws, hX⟩ := lex_hash_inv hl hsym
      unfold comment_loop at h
      simp only [hsym, if_true] at h
      cases hb : comment_body (stdin.length + 1) stdin with
      | none => simp [hb] at h
      | some v =>
        obtain ⟨st, tokb, in1⟩ := v
        by_cases hst : st = 0
        · subst hst
          obtain ⟨c, hc, hstd⟩ := comment_body_inv _ _ _ _ hb
          rcases hl2 : lex in1 with ⟨st2, tok2, in2⟩
          by_cases hst2 : st2 = 0
          · subst hst2
            simp [hb, hl2] at h
            obtain ⟨bs, X1, hbs, hin1, hlX1, hs1⟩ := ih in1 in2 rest tok2 tok1 hl2 h
            refine ⟨(ws, c) :: bs, X1, ?_, ?_, hlX1, hs1⟩
            · intro b hb1
              rcases List.mem_cons.mp hb1 with rfl | hb1
              · exact ⟨hws, hc⟩
              · exact hbs b hb1
            · rw [hX, hstd, hin1]
              rfl
          · simp [hb, hl2, hst2] at h
        · simp [hb, hst] at h
    · simp [comment_loop, hsym] at h
      refine ⟨[], X, by simp, rfl, ?_, ?_⟩
      · rw [hl, h.1, h.2]
      · rw [← h.1]
        simpa using hsym

theorem is_symbol_eq {tok : token} {sym : Char} (h : is_symbol tok sym = true) :
    tok = token.SYMBOL_TOK sym := by
  cases tok with
  | SYMBOL_TOK c =>
    simp [is_symbol] at h
    rw [h]
  | ERR_TOK => simp [is_symbol] at h
  | IDENT_TOK b => simp [is_symbol] at h
  | NUM_TOK n => simp [is_symbol] at h

theorem lex_ident_length {stdin rest buf : List Char}
    (h : lex stdin = (0, token.IDENT_TOK buf, rest)) :
    buf.length = IDENTIFIER_MAX_LENGTH := by
  obtain ⟨ws, s, -, -, -, -, -, hb⟩ := lex_ident_inv h
  rw [hb]
  exact ident_pad_length _ (by simp)

theorem lex_tokens_cons (n : Nat) (stdin r : List Char) (tok : token) (toks : List token) :
    lex_tokens (n + 1) stdin = some (tok :: toks, r) ↔
      ∃ rest, lex stdin = (0, tok, rest) ∧ lex_tokens n rest = some (toks, r) := by
  rcases hl : lex stdin with ⟨st, tok0, rest0⟩
  by_cases hst : st = 0
  · subst hst
    cases hn : lex_tokens n rest0 with
    | none => simp [lex_tokens, hl, hn]
    | some v =>
      obtain ⟨toks0, r0⟩ := v
      simp only [lex_tokens, hl, hn]
      constructor
      · intro h
        simp at h
        exact ⟨rest0, by rw [h.1.1], by rw [hn, h.1.2, h.2]⟩
      · rintro ⟨rest, h1, h2⟩
        simp at h1
        rw [← h1.2, hn] at h2
        simp at h2
        simp [h1.1, h2.1, h2.2]
  · simp [lex_tokens, hl, hst]

/-- The first token of the input decides what parse does when it is not a `#`. -/
theorem parse_of_first_token {stdin in1 : List Char} {tok : token}
    (hl : lex stdin = (0, tok, in1)) (hsym : is_symbol tok '#' = false) :
    parse stdin =
      if is_ident tok fn_keyword then parse_fndecl stmt_zero in1
      else some (0, stmt_zero, in1) := by
  simp [parse, hl, comment_loop, hsym]
  rfl

theorem parse_fndecl_args (out : stmt) (stdin : List Char) :
    (parse_fndecl out stdin).map (fun r => r.2.1.FNDECL_args) = some out.FNDECL_args := by
  unfold parse_fndecl
  simp only [arglist_parse_eq]
  repeat' split
  all_goals rfl

/-- The branch of parse for `fn` succeeds exactly on five tokens: a name, any
token, `:`, a type keyword and `;`. -/
theorem parse_fndecl_ok_iff (stdin r : List Char) (s : stmt) :
    parse_fndecl stmt_zero stdin = some (0, s, r) ↔
      ∃ name tok T, T ≠ type.ERR_TYPE ∧
        lex_tokens 5 stdin = some ([token.IDENT_TOK name, tok, token.SYMBOL_TOK ':',
          token.IDENT_TOK (ident_pad (type_keyword T)), token.SYMBOL_TOK ';'], r) ∧
        s = ⟨stmt_type.FNDECL_STMT, T, name, List.replicate FUNCTION_MAX_ARGS arg_zero⟩ := by
  constructor
  · intro h
    unfold parse_fndecl at h
    simp only [arglist_parse_eq] at h
    rcases hl1 : lex stdin with ⟨st1, tok1, in1⟩
    rcases hl2 : lex in1 with ⟨st2, tok2, in2⟩
    rcases hl3 : lex in2 with ⟨st3, tok3, in3⟩
    rcases ht : type_parse in3 with ⟨st4, ty, in4⟩
    rcases hl5 : lex in4 with ⟨st5, tok5, in5⟩
    simp only [hl1, hl2, hl3, ht, hl5] at h
    by_cases hst1 : st1 = 0
    swap
    · simp [hst1] at h
    subst hst1
    cases tok1 with
    | ERR_TOK => simp [is_ident_tok] at h
    | NUM_TOK n => simp [is_ident_tok] at h
    | SYMBOL_TOK c => simp [is_ident_tok] at h
    | IDENT_TOK name =>
      by_cases hst3 : st3 = 0
      swap
      · simp [is_ident_tok, hst3] at h
      subst hst3
      by_cases hc3 : is_symbol tok3 ':' = true
      swap
      · simp [is_ident_tok, hc3] at h
      by_cases hst4 : st4 = 0
      swap
      · simp [is_ident_tok, hc3, hst4] at h
      subst hst4
      by_cases hst5 : st5 = 0
      swap
      · simp [is_ident_tok, hc3, hst5] at h
      subst hst5
      by_cases hc5 : is_symbol tok5 ';' = true
      swap
      · simp [is_ident_tok, hc3, hc5] at h
      simp [is_ident_tok, hc3, hc5] at h
      have hst2 : st2 = 0 := by
        by_contra hne
        obtain ⟨-, -, hin2⟩ := lex_fail hl2 hne
        have h0 : lex [] = (1, token_zero, []) := rfl
        rw [hin2, h0] at hl3
        simp at hl3
      subst hst2
      obtain ⟨hty, buf, hl4, hbuf⟩ := type_parse_ok ht
      rw [List.take_of_length_le (Nat.le_of_eq (lex_ident_length hl4))] at hbuf
      rw [hbuf] at hl4
      rw [is_symbol_eq hc3] at hl3
      rw [is_symbol_eq hc5] at hl5
      refine ⟨name, tok2, ty, hty, ?_, ?_⟩
      · simp [lex_tokens, hl1, hl2, hl3, hl4, hl5, h.2]
      · rw [← h.1]
        simp [cp_ident, List.take_of_length_le (Nat.le_of_eq (lex_ident_length hl1)),
          stmt_zero]
  · rintro ⟨name, tok, T, hT, htoks, hs⟩
    obtain ⟨in1, hl1, htoks⟩ := (lex_tokens_cons _ _ _ _ _).mp htoks
    obtain ⟨in2, hl2, htoks⟩ := (lex_tokens_cons _ _ _ _ _).mp htoks
    obtain ⟨in3, hl3, htoks⟩ := (lex_tokens_cons _ _ _ _ _).mp htoks
    obtain ⟨in4, hl4, htoks⟩ := (lex_tokens_cons _ _ _ _ _).mp htoks
    obtain ⟨in5, hl5, htoks⟩ := (lex_tokens_cons _ _ _ _ _).mp htoks
    simp [lex_tokens] at htoks
    have ht := type_parse_keyword T hT hl4
    unfold parse_fndecl
    simp only [arglist_parse_eq]
    simp [hl1, hl2, hl3, ht, hl5, is_ident_tok, is_symbol, hs, htoks, cp_ident,
      List.take_of_length_le (Nat.le_of_eq (lex_ident_length hl1)), stmt_zero]

/-- Either parse fails before any statement, leaving the zeroed record, or
its input is a run of comment blocks followed by an input whose first token is
not a `#`. -/
theorem parse_first_token (stdin : List Char) :
    (∃ r, parse stdin = some (1, stmt_zero, r)) ∨
    ∃ blocks X tok in1, (∀ b ∈ blocks, (∀ c ∈ b.1, isspace c = true) ∧ '#' ∉ b.2) ∧
      stdin = after_comments blocks X ∧ lex X = (0, tok, in1) ∧
      is_symbol tok '#' = false := by
  rcases hl : lex stdin with ⟨st, tok, in1⟩
  by_cases hst : st = 0
  · subst hst
    obtain ⟨⟨st1, tok1, in2⟩, hc⟩ := comment_loop_total (in1.length + 1) tok in1 (by omega)
    by_cases hst1 : st1 = 0
    · subst hst1
      obtain ⟨blocks, X, hb, hX, hlX, hsym⟩ := comment_loop_inv _ _ _ _ _ _ hl hc
      exact Or.inr ⟨blocks, X, tok1, in2, hb, hX, hlX, hsym⟩
    · exact Or.inl ⟨in2, by simp [parse, hl, hc, hst1]⟩
  · exact Or.inl ⟨in1, by simp [parse, hl, hst]⟩

theorem is_ident_fn_eq {stdin in1 : List Char} {tok : token}
    (hl : lex stdin = (0, tok, in1)) (h : is_ident tok fn_keyword = true) :
    tok = token.IDENT_TOK fn_keyword := by
  cases tok with
  | IDENT_TOK buf =>
    have hlen := lex_ident_length hl
    simp only [is_ident, memcmp_eq, decide_eq_true_eq] at h
    rw [List.take_of_length_le (Nat.le_of_eq hlen),
      List.take_of_length_le (by decide)] at h
    rw [h]
  | ERR_TOK => simp [is_ident] at h
  | NUM_TOK n => simp [is_ident] at h
  | SYMBOL_TOK c => simp [is_ident] at h

/-- Once the token `fn` is read, behind comment blocks, parse is its branch
for function declarations. -/
theorem parse_fn_recognised (blocks : List (List Char × List Char)) (X in1 : List Char)
    (hb : ∀ b ∈ blocks, (∀ c ∈ b.1, isspace c = true) ∧ '#' ∉ b.2)
    (hl : lex X = (0, token.IDENT_TOK fn_keyword, in1)) :
    parse (after_comments blocks X) = parse_fndecl stmt_zero in1 := by
  rw [parse_after_comments blocks X hb, parse_of_first_token hl rfl]
  rfl

/-! ## Remaining input -/

theorem type_parse_rest (stdin : List Char) : (type_parse stdin).2.2 = (lex stdin).2.2 := by
  unfold type_parse
  rcases lex stdin with ⟨st, tok, rest⟩
  cases tok <;> dsimp only <;> split_ifs <;> rfl

theorem comment_body_suffix : ∀ (fuel : Nat) (stdin rest : List Char) (st : Nat)
    (tok : token), comment_body fuel stdin = some (st, tok, rest) → rest <:+ stdin := by
  intro fuel
  induction fuel with
  | zero => intro stdin rest st tok h; simp [comment_body] at h
  | succ n ih =>
    intro stdin rest st tok h
    rcases hl : lex stdin with ⟨st1, tok1, rest1⟩
    have hsuf : rest1 <:+ stdin := by simpa [hl] using lex_suffix stdin
    by_cases hst : st1 = 0
    · subst hst
      by_cases hsym : is_symbol tok1 '#' = true
      · simp [comment_body, hl, hsym] at h
        rw [← h.2.2]
        exact hsuf
      · simp [comment_body, hl, hsym] at h
        exact (ih rest1 rest st tok h).trans hsuf
    · simp [comment_body, hl, hst] at h
      rw [← h.2.2]
      exact hsuf

theorem comment_loop_suffix : ∀ (fuel : Nat) (stdin rest : List Char) (st : Nat)
    (tok tok1 : token), comment_loop fuel tok stdin = some (st, tok1, rest) →
    rest <:+ stdin := by
  intro fuel
  induction fuel with
  | zero => intro stdin rest st tok tok1 h; simp [comment_loop] at h
  | succ n ih =>
    intro stdin rest st tok tok1 h
    by_cases hsym : is_symbol tok '#' = true
    · unfold comment_loop at h
      simp only [hsym, if_true] at h
      cases hb : comment_body (stdin.length + 1) stdin with
      | none => simp [hb] at h
      | some v =>
        obtain ⟨stb, tokb, in1⟩ := v
        have hs1 := comment_body_suffix _ _ _ _ _ hb
        by_cases hst : stb = 0
        · subst hst
          rcases hl2 : lex in1 with ⟨st2, tok2, in2⟩
          have hs2 : in2 <:+ in1 := by simpa [hl2] using lex_suffix in1
          by_cases hst2 : st2 = 0
          · subst hst2
            simp [hb, hl2] at h
            exact ((ih in2 rest st tok2 tok1 h).trans hs2).trans hs1
          · simp [hb, hl2, hst2] at h
            rw [← h.2.2]
            exact hs2.trans hs1
        · simp [hb, hst] at h
          rw [← h.2.2]
          exact hs1
    · simp [comment_loop, hsym] at h
      rw [← h.2.2]

theorem parse_fndecl_suffix (out : stmt) (stdin r : List Char) (st : Nat) (s : stmt)
    (h : parse_fndecl out stdin = some (st, s, r)) : r <:+ stdin := by
  unfold parse_fndecl at h
  simp only [arglist_parse_eq] at h
  rcases hl1 : lex stdin with ⟨st1, tok1, in1⟩
  rcases hl2 : lex in1 with ⟨st2, tok2, in2⟩
  rcases hl3 : lex in2 with ⟨st3, tok3, in3⟩
  rcases ht : type_parse in3 with ⟨st4, ty, in4⟩
  rcases hl5 : lex in4 with ⟨st5, tok5, in5⟩
  have s1 : in1 <:+ stdin := by simpa [hl1] using lex_suffix stdin
  have s2 : in2 <:+ stdin := (by simpa [hl2] using lex_suffix in1 : in2 <:+ in1).trans s1
  have s3 : in3 <:+ stdin := (by simpa [hl3] using lex_suffix in2 : in3 <:+ in2).trans s2
  have s4 : in4 <:+ stdin := by
    have h4 := lex_suffix in3
    rw [← type_parse_rest, ht] at h4
    exact h4.trans s3
  have s5 : in5 <:+ stdin := (by simpa [hl5] using lex_suffix in4 : in5 <:+ in4).trans s4
  simp only [hl1, hl2, hl3, ht, hl5] at h
  split_ifs at h
  all_goals simp only [Option.some.injEq, Prod.mk.injEq] at h
  all_goals rw [← h.2.2]
  all_goals assumption

/-- What parse leaves is a part of what its first call of lex leaves. -/
theorem parse_suffix_first (stdin r : List Char) (st : Nat) (s : stmt)
    (h : parse stdin = some (st, s, r)) : r <:+ (lex stdin).2.2 := by
  unfold parse at h
  rcases hl : lex stdin with ⟨st0, tok, in1⟩
  rw [hl] at h
  by_cases hst : st0 = 0
  · subst hst
    cases hc : comment_loop (in1.length + 1) tok in1 with
    | none => simp [hc] at h
    | some v =>
      obtain ⟨st1, tok1, in2⟩ := v
      have hs2 := comment_loop_suffix _ _ _ _ _ _ hc
      by_cases hst1 : st1 = 0
      · subst hst1
        by_cases hfn : is_ident tok1 fn_keyword = true
        · simp [hc, hfn] at h
          exact (parse_fndecl_suffix _ _ _ _ _ h).trans hs2
        · simp [hc, hfn] at h
          rw [← h.2.2]
          exact hs2
      · simp [hc, hst1] at h
        rw [← h.2.2]
        exact hs2
  · simp [hst] at h
    rw [← h.2.2]

theorem parse_progress (stdin r : List Char) (s : stmt)
    (h : parse stdin = some (0, s, r)) : r <:+ stdin ∧ r.length < stdin.length := by
  have hsuf := parse_suffix_first stdin r 0 s h
  rcases hl : lex stdin with ⟨st0, tok, in1⟩
  rw [hl] at hsuf
  have hst : st0 = 0 := by
    by_contra hne
    simp [parse, hl, hne] at h
  subst hst
  have hp := lex_progress hl
  have hs1 : in1 <:+ stdin := by simpa [hl] using lex_suffix stdin
  have := hsuf.length_le
  exact ⟨hsuf.trans hs1, by simp at this; omega⟩

theorem main_loop_total : ∀ (fuel : Nat) (stdin : List Char), stdin.length < fuel →
    ∃ outs text e, main_loop fuel stdin = some (outs, text, e) ∧
      outs.length ≤ stdin.length := by
  intro fuel
  induction fuel with
  | zero => intro stdin h; omega
  | succ n ih =>
    intro stdin hlen
    obtain ⟨⟨st, out, rest⟩, hp⟩ := parse_total stdin
    by_cases hst : st = 0
    · subst hst
      obtain ⟨-, hlt⟩ := parse_progress stdin rest out hp
      obtain ⟨outs, text, e, ho, hl⟩ := ih rest (by omega)
      cases ht : out.type with
      | FNDECL_STMT =>
        exact ⟨[out], [], main_end.undefined_printf, by simp [main_loop, hp, ht],
          by simp; omega⟩
      | ERR_STMT =>
        exact ⟨out :: outs, "[error?]".toList ++ Char.ofNat 10 :: text, e,
          by simp [main_loop, hp, ht, ho], by simp; omega⟩
      | VARDECL_STMT =>
        exact ⟨out :: outs, text, e, by simp [main_loop, hp, ht, ho], by simp; omega⟩
    · exact ⟨[], [], main_end.returned, by simp [main_loop, hp, hst], by simp⟩

/-- On `123 fn f(: int; 456` the loop of main prints `[error?]` for `123` and
then enters its body with the declaration of `f`, where the run ends in the
`printf` without arguments; `456` is never parsed. -/
theorem main_stops_at_fndecl :
    main "123 fn f(: int; 456".toList =
      some ([stmt_zero,
          ⟨stmt_type.FNDECL_STMT, type.INT_TYPE, ['f', NUL, NUL, NUL, NUL, NUL],
            List.replicate FUNCTION_MAX_ARGS arg_zero⟩],
        "[error?]".toList ++ [Char.ofNat 10], main_end.undefined_printf) := by
  decide

/-- The record that a failing parse leaves, by whether the token `fn` was
read behind the comment blocks. -/
theorem parse_failure_cases (stdin r : List Char) (s : stmt)
    (h : parse stdin = some (1, s, r)) :
    ((∃ blocks X in1, (∀ b ∈ blocks, (∀ c ∈ b.1, isspace c = true) ∧ '#' ∉ b.2) ∧
        stdin = after_comments blocks X ∧ lex X = (0, token.IDENT_TOK fn_keyword, in1)) ∧
      s.type = stmt_type.FNDECL_STMT) ∨
    ((¬ ∃ blocks X in1, (∀ b ∈ blocks, (∀ c ∈ b.1, isspace c = true) ∧ '#' ∉ b.2) ∧
        stdin = after_comments blocks X ∧ lex X = (0, token.IDENT_TOK fn_keyword, in1)) ∧
      s = stmt_zero) := by
  by_cases hrec : ∃ blocks X in1,
      (∀ b ∈ blocks, (∀ c ∈ b.1, isspace c = true) ∧ '#' ∉ b.2) ∧
      stdin = after_comments blocks X ∧ lex X = (0, token.IDENT_TOK fn_keyword, in1)
  · left
    refine ⟨hrec, ?_⟩
    obtain ⟨blocks, X, in1, hb, hX, hl⟩ := hrec
    rw [hX, parse_fn_recognised blocks X in1 hb hl] at h
    have ht := parse_fndecl_type stmt_zero in1
    rw [h] at ht
    simpa using ht
  · right
    refine ⟨hrec, ?_⟩
    rcases parse_first_token stdin with ⟨r1, h1⟩ | ⟨blocks, X, tok0, in1, hb, hX, hl, hsym⟩
    · rw [h1] at h
      simp at h
      exact h.1.symm
    · by_cases hfn : is_ident tok0 fn_keyword = true
      · rw [is_ident_fn_eq hl hfn] at hl
        exact absurd ⟨blocks, X, in1, hb, hX, hl⟩ hrec
      · rw [hX, parse_after_comments blocks X hb, parse_of_first_token hl hsym,
          if_neg hfn] at h
        simp at h

/-! ## The properties -/

/-- C1: on `fn f(): int;` the function parse does not return a function
declaration: it returns the failure status 1, having consumed `fn f()`,
because arglist_parse fails on every input and the token after the one it
consumed, `)`, is not the `:` that parse expects. -/
theorem parse_fn_no_args_fails :
    parse "fn f(): int;".toList =
      some (1, ⟨stmt_type.FNDECL_STMT, type.ERR_TYPE, ['f', NUL, NUL, NUL, NUL, NUL],
        List.replicate FUNCTION_MAX_ARGS arg_zero⟩, ": int;".toList) := by
  decide

/-- C2: on `fn f(a: int, b: nat): id;` the function parse returns the failure
status 1 with no argument stored: every argument slot keeps the zeroed name
and the tag `ERR_TYPE`, and the input stops after `fn f(a`. -/
theorem parse_fn_two_args_fails :
    parse "fn f(a: int, b: nat): id;".toList =
      some (1, ⟨stmt_type.FNDECL_STMT, type.ERR_TYPE, ['f', NUL, NUL, NUL, NUL, NUL],
        List.replicate FUNCTION_MAX_ARGS arg_zero⟩, ": int, b: nat): id;".toList) := by
  decide

/-- C3: on `fn f(: int;`, whose argument list is the lone `(`, the function
parse returns success with a function declaration named `f` of return type
`INT_TYPE`. -/
theorem parse_accepts_malformed_arglist :
    parse "fn f(: int;".toList =
      some (0, ⟨stmt_type.FNDECL_STMT, type.INT_TYPE, ['f', NUL, NUL, NUL, NUL, NUL],
        List.replicate FUNCTION_MAX_ARGS arg_zero⟩, []) := by
  decide

/-- C4: when the first token of `stdin` is neither the symbol `#` nor the
identifier token whose buffer is `fn`, be it a number, another symbol or any
other identifier, parse on `stdin`, also behind white space and complete
comment blocks, returns success with the zeroed statement, whose tag is
`ERR_STMT`, and leaves the input exactly where lex left it after that one
token. -/
theorem parse_unknown_token (blocks : List (List Char × List Char))
    (stdin rest : List Char) (tok : token)
    (hb : ∀ b ∈ blocks, (∀ c ∈ b.1, isspace c = true) ∧ '#' ∉ b.2)
    (hl : lex stdin = (0, tok, rest))
    (hsym : tok ≠ token.SYMBOL_TOK '#') (hfn : tok ≠ token.IDENT_TOK fn_keyword) :
    parse (after_comments blocks stdin) = some (0, stmt_zero, rest) ∧
      stmt_zero.type = stmt_type.ERR_STMT := by
  have hs : is_symbol tok '#' = false := by
    cases hv : is_symbol tok '#' with
    | false => rfl
    | true => exact absurd (is_symbol_eq hv) hsym
  have hf : is_ident tok fn_keyword = false := by
    cases hv : is_ident tok fn_keyword with
    | false => rfl
    | true => exact absurd (is_ident_fn_eq hl hv) hfn
  refine ⟨?_, rfl⟩
  rw [parse_after_comments blocks stdin hb]
  simp [parse, hl, comment_loop, hs, hf]
  rfl

theorem parse_unknown_token_witness :
    lex "var x;".toList = (0, token.IDENT_TOK var_keyword, " x;".toList) ∧
    token.IDENT_TOK var_keyword ≠ token.SYMBOL_TOK '#' ∧
    token.IDENT_TOK var_keyword ≠ token.IDENT_TOK fn_keyword ∧
    (parse " # fn #\n#x#var x;".toList = some (0, stmt_zero, " x;".toList) ∧
      stmt_zero.type = stmt_type.ERR_STMT) ∧
    (parse "fna;".toList = some (0, stmt_zero, ";".toList) ∧
      stmt_zero.type = stmt_type.ERR_STMT) ∧
    (parse "123;".toList = some (0, stmt_zero, ";".toList) ∧
      stmt_zero.type = stmt_type.ERR_STMT) :=
  ⟨by decide, by decide, by decide,
    parse_unknown_token [(" ".toList, " fn ".toList), ("\n".toList, "x".toList)]
      "var x;".toList " x;".toList (token.IDENT_TOK var_keyword) (by decide) (by decide)
      (by decide) (by decide),
    parse_unknown_token [] "fna;".toList ";".toList
      (token.IDENT_TOK ['f', 'n', 'a', NUL, NUL, NUL]) (by decide) (by decide) (by decide)
      (by decide),
    parse_unknown_token [] "123;".toList ";".toList (token.NUM_TOK 0) (by decide) (by decide)
      (by decide) (by decide)⟩

/-- C5: a comment block `#c#`, with no `#` in `c`, in front of `rest` changes
nothing: parse returns the same status, statement and remaining input as on
`rest` alone, and so it does behind any number of consecutive comment blocks;
parse does return a result on `rest`. -/
theorem parse_comment_ignored (c rest : List Char) (cs : List (List Char))
    (hc : '#' ∉ c) (hcs : ∀ b ∈ cs, '#' ∉ b) :
    parse ('#' :: (c ++ '#' :: rest)) = parse rest ∧
    parse (comment_run cs rest) = parse rest ∧
    ∃ r, parse rest = some r := by
  refine ⟨parse_comment_block [] c rest (by simp) hc, ?_, parse_total rest⟩
  induction cs with
  | nil => rfl
  | cons b bs ih =>
    have h := parse_comment_block [] b (comment_run bs rest) (by simp)
      (hcs b (List.mem_cons_self _ _))
    rw [comment_run]
    exact h.trans (ih (fun x hx => hcs x (List.mem_cons_of_mem _ hx)))

theorem parse_comment_ignored_witness :
    '#' ∉ " anything here, including fn f(): int; ".toList ∧
    parse "# anything here, including fn f(): int; #fn g(): int;".toList
        = parse "fn g(): int;".toList ∧
    parse "# anything here, including fn f(): int; ##x#fn g(): int;".toList
        = parse "fn g(): int;".toList ∧
    ∃ r, parse "fn g(): int;".toList = some r :=
  ⟨by decide,
    parse_comment_ignored " anything here, including fn f(): int; ".toList
      "fn g(): int;".toList [" anything here, including fn f(): int; ".toList, "x".toList]
      (by decide) (by decide)⟩

/-- C6: type_parse succeeds with a tag `T` other than `ERR_TYPE` exactly when
the input is white space, then the keyword of `T` in full, then a remaining
input that does not go on with a letter; and whatever the input, it either
succeeds with such a tag or fails with status 1 and the tag `ERR_TYPE`. -/
theorem type_parse_iff_keyword (stdin rest : List Char) (T : type)
    (hT : T ≠ type.ERR_TYPE) :
    (type_parse stdin = (0, T, rest) ↔
      ∃ ws, (∀ c ∈ ws, isspace c = true) ∧ stdin = ws ++ (type_keyword T ++ rest) ∧
        ∀ c, rest.head? = some c → isalpha c = false) ∧
    ((∃ T1 rest1, T1 ≠ type.ERR_TYPE ∧ type_parse stdin = (0, T1, rest1)) ∨
      ∃ rest1, type_parse stdin = (1, type.ERR_TYPE, rest1)) := by
  refine ⟨⟨?_, ?_⟩, type_parse_status stdin⟩
  · intro h
    obtain ⟨-, buf, hlex, hbuf⟩ := type_parse_ok h
    obtain ⟨ws, s, hws, -, hs, hr, hstd, hb⟩ := lex_ident_inv hlex
    have hlen : buf.length = IDENTIFIER_MAX_LENGTH := by
      rw [hb]
      exact ident_pad_length _ (by simp)
    rw [List.take_of_length_le (by omega), hb] at hbuf
    have hsk := ident_pad_take_inj s (type_keyword T) hs (type_keyword_alpha T)
      (type_keyword_length T) hbuf
    exact ⟨ws, hws, by rw [hstd, hsk], hr⟩
  · rintro ⟨ws, hws, hstd, hr⟩
    have hne : type_keyword T ≠ [] := by
      cases T
      · exact absurd rfl hT
      all_goals decide
    have hlex := lex_ident ws (type_keyword T) rest hws hne (type_keyword_alpha T) hr
    rw [List.take_of_length_le (Nat.le_of_lt (type_keyword_length T)), ← hstd] at hlex
    exact type_parse_keyword T hT hlex

theorem type_parse_iff_keyword_witness :
    type.NAT_TYPE ≠ type.ERR_TYPE ∧
    ((type_parse " nat)".toList = (0, type.NAT_TYPE, ")".toList) ↔
      ∃ ws, (∀ c ∈ ws, isspace c = true) ∧
        " nat)".toList = ws ++ (type_keyword type.NAT_TYPE ++ ")".toList) ∧
        ∀ c, ")".toList.head? = some c → isalpha c = false) ∧
    ((∃ T1 rest1, T1 ≠ type.ERR_TYPE ∧ type_parse " nat)".toList = (0, T1, rest1)) ∨
      ∃ rest1, type_parse " nat)".toList = (1, type.ERR_TYPE, rest1))) :=
  ⟨by decide, type_parse_iff_keyword " nat)".toList ")".toList type.NAT_TYPE (by decide)⟩

/-- C7: on `123;` the function lex returns a number token whose value field is
0, not 123: the loop computes 123 in the local `number`, which is never stored
in the token; the `;` is left as the next character. -/
theorem lex_number_value_not_stored :
    lex "123;".toList = (0, token.NUM_TOK 0, ";".toList) ∧
    (number_loop 0 '1' "23;".toList).1 = 123 := by
  decide

/-- C8: for a run `s` of 1 to 6 letters followed by `r`, which is empty or
starts with a character that is not a letter, lex returns the identifier token
whose buffer is `s` followed by zero bytes up to 6, leaves `r` as the input,
and rendering the buffer gives back `s`. -/
theorem lex_identifier_round_trip (s r : List Char) (hs : ∀ c ∈ s, isalpha c = true)
    (h1 : 1 ≤ s.length) (h6 : s.length ≤ IDENTIFIER_MAX_LENGTH)
    (hr : ∀ c, r.head? = some c → isalpha c = false) :
    lex (s ++ r) =
      (0, token.IDENT_TOK (s ++ List.replicate (IDENTIFIER_MAX_LENGTH - s.length) NUL), r) ∧
    render_ident (s ++ List.replicate (IDENTIFIER_MAX_LENGTH - s.length) NUL) = s := by
  have hne : s ≠ [] := by
    intro h
    rw [h] at h1
    exact absurd h1 (by decide)
  have hlex := lex_ident [] s r (by simp) hne hs hr
  rw [List.take_of_length_le h6] at hlex
  exact ⟨hlex, render_ident_pad s hs h6⟩

theorem lex_identifier_round_trip_witness :
    (∀ c ∈ "main".toList, isalpha c = true) ∧ 1 ≤ "main".toList.length ∧
    "main".toList.length ≤ IDENTIFIER_MAX_LENGTH ∧
    (∀ c, "(x".toList.head? = some c → isalpha c = false) ∧
    (lex "main(x".toList = (0, token.IDENT_TOK ['m', 'a', 'i', 'n', NUL, NUL], "(x".toList) ∧
      render_ident ['m', 'a', 'i', 'n', NUL, NUL] = "main".toList) :=
  ⟨by decide, by decide, by decide, by decide,
    lex_identifier_round_trip "main".toList "(x".toList (by decide) (by decide) (by decide)
      (by decide)⟩

/-- C9: for a run `s` of more than 6 letters followed by `r`, which is empty
or starts with a character that is not a letter, lex returns the identifier
token whose buffer is the first 6 letters of `s` and leaves exactly `r` as the
input. -/
theorem lex_identifier_truncated (s r : List Char) (hs : ∀ c ∈ s, isalpha c = true)
    (h6 : IDENTIFIER_MAX_LENGTH < s.length)
    (hr : ∀ c, r.head? = some c → isalpha c = false) :
    lex (s ++ r) = (0, token.IDENT_TOK (s.take IDENTIFIER_MAX_LENGTH), r) := by
  have hne : s ≠ [] := by
    intro h
    rw [h] at h6
    exact absurd h6 (by decide)
  have hlex := lex_ident [] s r (by simp) hne hs hr
  have hpad : ident_pad (s.take IDENTIFIER_MAX_LENGTH) = s.take IDENTIFIER_MAX_LENGTH := by
    have hl : (s.take IDENTIFIER_MAX_LENGTH).length = IDENTIFIER_MAX_LENGTH := by
      rw [List.length_take]
      omega
    simp [ident_pad, hl]
  rw [hpad] at hlex
  exact hlex

theorem lex_identifier_truncated_witness :
    (∀ c ∈ "identifier".toList, isalpha c = true) ∧
    IDENTIFIER_MAX_LENGTH < "identifier".toList.length ∧
    (∀ c, ": int".toList.head? = some c → isalpha c = false) ∧
    lex "identifier: int".toList = (0, token.IDENT_TOK "identi".toList, ": int".toList) :=
  ⟨by decide, by decide, by decide,
    lex_identifier_truncated "identifier".toList ": int".toList (by decide) (by decide)
      (by decide)⟩

/-- C10, as the claim states it, fails: on the unterminated comment `# abc`
parse returns the same status, the same statement record and the same
remaining input as on the white space ` \n` before the end of the input. -/
theorem parse_eof_same_as_unterminated_comment :
    parse " \n".toList = some (1, stmt_zero, []) ∧
    parse "# abc".toList = parse " \n".toList := by
  decide

/-- C10, amended: on white space up to the end of the input parse returns the
failure status 1 with the zeroed statement record, and whenever parse fails on
an input, with the same status 1, the record it leaves differs from the zeroed
one exactly when the token `fn` was read, behind white space and comment
blocks, before the failure; the record is then tagged `FNDECL_STMT`, and this
tag is another exact mark of the difference. -/
theorem parse_eof_and_failure_records (ws stdin r : List Char) (s : stmt)
    (hws : ∀ c ∈ ws, isspace c = true) (h : parse stdin = some (1, s, r)) :
    parse ws = some (1, stmt_zero, []) ∧
    (s ≠ stmt_zero ↔
      ∃ blocks X in1, (∀ b ∈ blocks, (∀ c ∈ b.1, isspace c = true) ∧ '#' ∉ b.2) ∧
        stdin = after_comments blocks X ∧
        lex X = (0, token.IDENT_TOK fn_keyword, in1)) ∧
    (s ≠ stmt_zero ↔ s.type = stmt_type.FNDECL_STMT) := by
  refine ⟨by simp [parse, lex_space_only ws hws], ?_⟩
  rcases parse_failure_cases stdin r s h with ⟨hrec, ht⟩ | ⟨hnrec, hs⟩
  · have hne : s ≠ stmt_zero := by
      intro h0
      rw [h0] at ht
      exact absurd ht (by decide)
    exact ⟨⟨fun _ => hrec, fun _ => hne⟩, ⟨fun _ => ht, fun _ => hne⟩⟩
  · refine ⟨⟨fun hne => absurd hs hne, fun hrec => absurd hrec hnrec⟩,
      ⟨fun hne => absurd hs hne, fun ht => ?_⟩⟩
    rw [hs] at ht
    exact absurd ht (by decide)

theorem parse_eof_and_failure_records_witness :
    (∀ c ∈ " \n".toList, isspace c = true) ∧
    parse "fn f(a int): int;".toList =
      some (1, ⟨stmt_type.FNDECL_STMT, type.ERR_TYPE, ['f', NUL, NUL, NUL, NUL, NUL],
        List.replicate FUNCTION_MAX_ARGS arg_zero⟩, " int): int;".toList) ∧
    (parse " \n".toList = some (1, stmt_zero, []) ∧
      ((⟨stmt_type.FNDECL_STMT, type.ERR_TYPE, ['f', NUL, NUL, NUL, NUL, NUL],
        List.replicate FUNCTION_MAX_ARGS arg_zero⟩ : stmt) ≠ stmt_zero ↔
        ∃ blocks X in1, (∀ b ∈ blocks, (∀ c ∈ b.1, isspace c = true) ∧ '#' ∉ b.2) ∧
          "fn f(a int): int;".toList = after_comments blocks X ∧
          lex X = (0, token.IDENT_TOK fn_keyword, in1)) ∧
      ((⟨stmt_type.FNDECL_STMT, type.ERR_TYPE, ['f', NUL, NUL, NUL, NUL, NUL],
        List.replicate FUNCTION_MAX_ARGS arg_zero⟩ : stmt) ≠ stmt_zero ↔
        (⟨stmt_type.FNDECL_STMT, type.ERR_TYPE, ['f', NUL, NUL, NUL, NUL, NUL],
          List.replicate FUNCTION_MAX_ARGS arg_zero⟩ : stmt).type = stmt_type.FNDECL_STMT)) :=
  ⟨by decide, by decide,
    parse_eof_and_failure_records " \n".toList "fn f(a int): int;".toList " int): int;".toList
      ⟨stmt_type.FNDECL_STMT, type.ERR_TYPE, ['f', NUL, NUL, NUL, NUL, NUL],
        List.replicate FUNCTION_MAX_ARGS arg_zero⟩ (by decide) (by decide)⟩

/-- C11: when the first token is the symbol `#`, behind white space `ws`, and
no `#` follows it, parse returns the failure status 1 with the zeroed
statement record, at the end of the input. -/
theorem parse_unterminated_comment (ws c : List Char)
    (hws : ∀ x ∈ ws, isspace x = true) (hc : '#' ∉ c) :
    parse (ws ++ '#' :: c) = some (1, stmt_zero, []) := by
  have hbody := comment_body_no_hash (c.length + 1) c hc (by omega)
  unfold parse
  rw [lex_hash ws c hws]
  simp [comment_loop, is_symbol, hbody]

theorem parse_unterminated_comment_witness :
    (∀ x ∈ " ".toList, isspace x = true) ∧ '#' ∉ " abc fn f(: int;".toList ∧
    parse " # abc fn f(: int;".toList = some (1, stmt_zero, []) :=
  ⟨by decide, by decide,
    parse_unterminated_comment " ".toList " abc fn f(: int;".toList (by decide) (by decide)⟩

/-- C12: on a declaration with seven well-formed arguments parse returns the
failure status 1 and stores no argument: arglist_parse fails after the `(`,
as it does on every input, and the next token `a` is not the `:` that parse
expects. -/
theorem parse_fn_seven_args_fails :
    parse "fn f(a: int, b: ib, c: ip, d: id, e: nat, g: nb, h: np): nd;".toList =
      some (1, ⟨stmt_type.FNDECL_STMT, type.ERR_TYPE, ['f', NUL, NUL, NUL, NUL, NUL],
        List.replicate FUNCTION_MAX_ARGS arg_zero⟩,
        ": int, b: ib, c: ip, d: id, e: nat, g: nb, h: np): nd;".toList) := by
  decide

/-- C13: on a character `c` that is neither white space nor a letter nor a
digit, followed by `rest`, lex returns the symbol token holding `c` and leaves
exactly `rest`. -/
theorem lex_symbol (c : Char) (rest : List Char) (hsp : isspace c = false)
    (hal : isalpha c = false) (hdg : isdigit c = false) :
    lex (c :: rest) = (0, token.SYMBOL_TOK c, rest) := by
  rw [lex_eq]
  simp [List.dropWhile_cons, hsp, hal, hdg]

theorem lex_symbol_witness :
    isspace ';' = false ∧ isalpha ';' = false ∧ isdigit ';' = false ∧
    lex ";fn".toList = (0, token.SYMBOL_TOK ';', "fn".toList) :=
  ⟨by decide, by decide, by decide, lex_symbol ';' "fn".toList (by decide) (by decide)
    (by decide)⟩

/-- C14: lex returns the status 1 exactly when every character of the input
is white space, the empty input included; it then leaves the zeroed token, and
otherwise it returns the status 0 with a token that is not tagged `ERR_TOK`. -/
theorem lex_eof_iff_only_space (stdin : List Char) :
    ((lex stdin).1 = 1 ↔ ∀ c ∈ stdin, isspace c = true) ∧
    (lex stdin = (1, token_zero, []) ∨
      ((lex stdin).1 = 0 ∧ (lex stdin).2.1 ≠ token.ERR_TOK)) := by
  have hiff : stdin.dropWhile isspace = [] ↔ ∀ c ∈ stdin, isspace c = true := by
    rw [List.dropWhile_eq_nil_iff]
  rw [lex_eq]
  cases hd : stdin.dropWhile isspace with
  | nil =>
    rw [hd] at hiff
    exact ⟨⟨fun _ => hiff.mp rfl, fun _ => rfl⟩, Or.inl rfl⟩
  | cons c cs =>
    rw [hd] at hiff
    have hno : ¬ ∀ c ∈ stdin, isspace c = true := fun h => by simpa using hiff.mpr h
    by_cases ha : isalpha c = true
    · simp [ha, hno]
    · by_cases hdg : isdigit c = true
      · simp [ha, hdg, hno]
      · simp [ha, hdg, hno]

/-- C16: whatever the input and the content of the argument array,
arglist_parse returns the failure status 1, leaves the array as it was, and
leaves the input where one call of lex leaves it; the condition of
`ASSERT_SYMBOL`, a non-zero status of lex together with a symbol token, never
holds. -/
theorem arglist_parse_always_fails (out : List arg) (stdin : List Char) (sym : Char) :
    arglist_parse out stdin = some (1, out, (lex stdin).2.2) ∧
    ((lex stdin).1 ≠ 0 && is_symbol (lex stdin).2.1 sym) = false := by
  refine ⟨arglist_parse_eq out stdin, ?_⟩
  rcases hl : lex stdin with ⟨st, tok, in1⟩
  by_cases hst : st = 0
  · simp [hst]
  · obtain ⟨-, htok, -⟩ := lex_fail hl hst
    simp [htok, token_zero, is_symbol]

/-- C19: white space in front of an input changes nothing for lex: status,
token and remaining input are those of the input without it. -/
theorem lex_leading_space (ws s : List Char) (hws : ∀ c ∈ ws, isspace c = true) :
    lex (ws ++ s) = lex s := by
  rw [lex_eq, lex_eq, dropWhile_isspace_append ws s hws]

theorem lex_leading_space_witness :
    (∀ c ∈ [' ', Char.ofNat 9, Char.ofNat 10, Char.ofNat 11, Char.ofNat 12, Char.ofNat 13],
      isspace c = true) ∧
    lex ([' ', Char.ofNat 9, Char.ofNat 10, Char.ofNat 11, Char.ofNat 12, Char.ofNat 13]
        ++ "fn f".toList) = lex "fn f".toList :=
  ⟨by decide,
    lex_leading_space
      [' ', Char.ofNat 9, Char.ofNat 10, Char.ofNat 11, Char.ofNat 12, Char.ofNat 13]
      "fn f".toList (by decide)⟩

/-- C15: parse returns success with a statement tagged `FNDECL_STMT` exactly
when its input is a run of comment blocks, each behind white space, followed
by an input whose first six tokens are the identifier `fn`, an identifier, one
token of any kind, the symbol `:`, the keyword of a type tag and the symbol
`;`; the statement then holds that tag as return type, the buffer of the
second token as name and zeroed argument slots, and the input is left after
the `;`. -/
theorem parse_fndecl_iff_six_tokens (stdin r : List Char) (s : stmt) :
    (parse stdin = some (0, s, r) ∧ s.type = stmt_type.FNDECL_STMT) ↔
      ∃ blocks X name tok T,
        (∀ b ∈ blocks, (∀ c ∈ b.1, isspace c = true) ∧ '#' ∉ b.2) ∧
        stdin = after_comments blocks X ∧ T ≠ type.ERR_TYPE ∧
        lex_tokens 6 X = some ([token.IDENT_TOK fn_keyword, token.IDENT_TOK name, tok,
          token.SYMBOL_TOK ':', token.IDENT_TOK (ident_pad (type_keyword T)),
          token.SYMBOL_TOK ';'], r) ∧
        s = ⟨stmt_type.FNDECL_STMT, T, name, List.replicate FUNCTION_MAX_ARGS arg_zero⟩ := by
  constructor
  · rintro ⟨h, htype⟩
    rcases parse_first_token stdin with ⟨r1, h1⟩ | ⟨blocks, X, tok0, in1, hb, hX, hl, hsym⟩
    · rw [h1] at h
      simp at h
    · rw [hX, parse_after_comments blocks X hb, parse_of_first_token hl hsym] at h
      by_cases hfn : is_ident tok0 fn_keyword = true
      · rw [if_pos hfn] at h
        rw [is_ident_fn_eq hl hfn] at hl
        obtain ⟨name, tok, T, hT, htoks, hs⟩ := (parse_fndecl_ok_iff in1 r s).mp h
        exact ⟨blocks, X, name, tok, T, hb, hX, hT,
          (lex_tokens_cons _ _ _ _ _).mpr ⟨in1, hl, htoks⟩, hs⟩
      · rw [if_neg hfn] at h
        simp at h
        rw [← h.1] at htype
        exact absurd htype (by decide)
  · rintro ⟨blocks, X, name, tok, T, hb, hX, hT, htoks, hs⟩
    obtain ⟨in1, hl, htoks⟩ := (lex_tokens_cons _ _ _ _ _).mp htoks
    refine ⟨?_, by rw [hs]⟩
    rw [hX, parse_fn_recognised blocks X in1 hb hl]
    exact (parse_fndecl_ok_iff in1 r s).mpr ⟨name, tok, T, hT, htoks, hs⟩

/-- C17, as the claim states it, fails: on `fn f` followed by the end of the
input parse returns the failure status 1 and leaves a record tagged
`FNDECL_STMT` that carries the name `f`, which is not the zeroed record. -/
theorem parse_failure_leaves_partial_record :
    parse "fn f".toList =
      some (1, ⟨stmt_type.FNDECL_STMT, type.ERR_TYPE, ['f', NUL, NUL, NUL, NUL, NUL],
        List.replicate FUNCTION_MAX_ARGS arg_zero⟩, []) ∧
    (⟨stmt_type.FNDECL_STMT, type.ERR_TYPE, ['f', NUL, NUL, NUL, NUL, NUL],
        List.replicate FUNCTION_MAX_ARGS arg_zero⟩ : stmt) ≠ stmt_zero := by
  decide

/-- C17, amended: when parse returns the failure status 1, either the token
`fn` was read, behind comment blocks, and the record is tagged `FNDECL_STMT`
with zeroed argument slots, or no such token was read and the record is the
zeroed one. -/
theorem parse_failure_record (stdin r : List Char) (s : stmt)
    (h : parse stdin = some (1, s, r)) :
    ((∃ blocks X in1, (∀ b ∈ blocks, (∀ c ∈ b.1, isspace c = true) ∧ '#' ∉ b.2) ∧
        stdin = after_comments blocks X ∧ lex X = (0, token.IDENT_TOK fn_keyword, in1)) ∧
      s.type = stmt_type.FNDECL_STMT ∧
      s.FNDECL_args = List.replicate FUNCTION_MAX_ARGS arg_zero) ∨
    ((¬ ∃ blocks X in1, (∀ b ∈ blocks, (∀ c ∈ b.1, isspace c = true) ∧ '#' ∉ b.2) ∧
        stdin = after_comments blocks X ∧ lex X = (0, token.IDENT_TOK fn_keyword, in1)) ∧
      s = stmt_zero) := by
  by_cases hrec : ∃ blocks X in1,
      (∀ b ∈ blocks, (∀ c ∈ b.1, isspace c = true) ∧ '#' ∉ b.2) ∧
      stdin = after_comments blocks X ∧ lex X = (0, token.IDENT_TOK fn_keyword, in1)
  · left
    refine ⟨hrec, ?_⟩
    obtain ⟨blocks, X, in1, hb, hX, hl⟩ := hrec
    rw [hX, parse_fn_recognised blocks X in1 hb hl] at h
    have ht := parse_fndecl_type stmt_zero in1
    have ha := parse_fndecl_args stmt_zero in1
    rw [h] at ht ha
    exact ⟨by simpa using ht, by simpa using ha⟩
  · right
    refine ⟨hrec, ?_⟩
    rcases parse_first_token stdin with ⟨r1, h1⟩ | ⟨blocks, X, tok0, in1, hb, hX, hl, hsym⟩
    · rw [h1] at h
      simp at h
      exact h.1.symm
    · by_cases hfn : is_ident tok0 fn_keyword = true
      · rw [is_ident_fn_eq hl hfn] at hl
        exact absurd ⟨blocks, X, in1, hb, hX, hl⟩ hrec
      · rw [hX, parse_after_comments blocks X hb, parse_of_first_token hl hsym,
          if_neg hfn] at h
        simp at h

theorem parse_failure_record_witness :
    parse "fn f".toList =
      some (1, ⟨stmt_type.FNDECL_STMT, type.ERR_TYPE, ['f', NUL, NUL, NUL, NUL, NUL],
        List.replicate FUNCTION_MAX_ARGS arg_zero⟩, []) ∧
    (((∃ blocks X in1, (∀ b ∈ blocks, (∀ c ∈ b.1, isspace c = true) ∧ '#' ∉ b.2) ∧
        "fn f".toList = after_comments blocks X ∧
        lex X = (0, token.IDENT_TOK fn_keyword, in1)) ∧
      (⟨stmt_type.FNDECL_STMT, type.ERR_TYPE, ['f', NUL, NUL, NUL, NUL, NUL],
        List.replicate FUNCTION_MAX_ARGS arg_zero⟩ : stmt).type = stmt_type.FNDECL_STMT ∧
      (⟨stmt_type.FNDECL_STMT, type.ERR_TYPE, ['f', NUL, NUL, NUL, NUL, NUL],
        List.replicate FUNCTION_MAX_ARGS arg_zero⟩ : stmt).FNDECL_args
          = List.replicate FUNCTION_MAX_ARGS arg_zero) ∨
    ((¬ ∃ blocks X in1, (∀ b ∈ blocks, (∀ c ∈ b.1, isspace c = true) ∧ '#' ∉ b.2) ∧
        "fn f".toList = after_comments blocks X ∧
        lex X = (0, token.IDENT_TOK fn_keyword, in1)) ∧
      (⟨stmt_type.FNDECL_STMT, type.ERR_TYPE, ['f', NUL, NUL, NUL, NUL, NUL],
        List.replicate FUNCTION_MAX_ARGS arg_zero⟩ : stmt) = stmt_zero)) :=
  ⟨by decide, parse_failure_record "fn f".toList []
    ⟨stmt_type.FNDECL_STMT, type.ERR_TYPE, ['f', NUL, NUL, NUL, NUL, NUL],
      List.replicate FUNCTION_MAX_ARGS arg_zero⟩ (by decide)⟩

/-- C18: parse returns a result on every input; a successful lex and a
successful parse leave a proper suffix of their input; and the loop of main,
bounded by the length of the input plus one, comes to an end, by `return 0`
or in the `printf` without arguments of its body, having entered its body at
most as many times as the input has characters. -/
theorem parse_progress_and_termination (stdin : List Char) :
    (∃ res, parse stdin = some res) ∧
    (∀ tok rest, lex stdin = (0, tok, rest) →
      rest <:+ stdin ∧ rest.length < stdin.length) ∧
    (∀ out rest, parse stdin = some (0, out, rest) →
      rest <:+ stdin ∧ rest.length < stdin.length) ∧
    (∃ outs text e, main stdin = some (outs, text, e) ∧ outs.length ≤ stdin.length) := by
  refine ⟨parse_total stdin, ?_, ?_, main_loop_total _ stdin (by omega)⟩
  · intro tok rest hl
    exact ⟨by simpa [hl] using lex_suffix stdin, lex_progress hl⟩
  · intro out rest hp
    exact parse_progress stdin rest out hp

end Q
